import Mathlib

/-!
Verification of the CV-Optima document ingestion pipeline.

Shallow embedding of the repository's text-extraction and ingestion core:
  * `src/lib/utils/docx-parser.ts`  (DOCX extractor, its `cleanText`, `isValidDOCXBuffer`)
  * `src/lib/utils/pdf-parser.ts`   (PDF extractor, its `cleanText`, `isValidPDFBuffer`)
  * `src/lib/utils/file-validation.ts` (validators)
  * the `parseResume` / `deleteResume` server actions

Strings are embedded as `List Char`, byte buffers as `List Nat`; the external
collaborators (pdf-parse, mammoth, the Supabase datastore and blob storage) are
embedded as explicit oracles / state passed through the functions.
-/

abbrev Str := List Char

/-- Convenience conversion used only to write string constants of the model. -/
def str (s : String) : Str := s.toList

/-- The whitespace class recognised by JavaScript's `String.prototype.trim`
(restricted to the characters that can realistically occur here:
ASCII whitespace, NBSP and the BOM). -/
def isWS (c : Char) : Bool :=
  c ∈ ([' ', '\t', '\n', '\r', '\x0b', '\x0c', '\u00A0', '\uFEFF'] : List Char)

/-- JavaScript `s.trim()`: drop leading and trailing whitespace. -/
def trimStr (s : Str) : Str :=
  ((s.dropWhile isWS).reverse.dropWhile isWS).reverse

/-- Source step `.replace(/ {2,}/g, ' ')`: every maximal run of two or more spaces becomes a
single space (equivalently: while a space is followed by another space, the
first one is dropped; a lone space is kept). -/
def collapseSP : Str → Str
  | [] => []
  | c :: rest =>
    if c = ' ' ∧ rest.head? = some ' ' then collapseSP rest
    else c :: collapseSP rest

/-- Source step `.replace(/\n{3,}/g, '\n\n')`: every maximal run of three or more newlines
becomes exactly two (equivalently: while a newline is followed by at least two
more newlines, the first one is dropped). -/
def collapseNL : Str → Str
  | [] => []
  | c :: rest =>
    if c = '\n' ∧ rest.take 2 = ['\n', '\n'] then collapseNL rest
    else c :: collapseNL rest

/-- Source step `.replace(/\t/g, ' ')`. -/
def tabsToSp (s : Str) : Str :=
  s.map fun c => if c = '\t' then ' ' else c

/-- JavaScript `s.split('\n')`: `''.split('\n') = ['']`, one extra piece per
newline, pieces may be empty. -/
def splitLines : Str → List Str
  | [] => [[]]
  | c :: rest =>
    if c = '\n' then [] :: splitLines rest
    else
      match splitLines rest with
      | [] => [[c]]
      | l :: ls => (c :: l) :: ls

/-- JavaScript `lines.join('\n')`. -/
def joinLines : List Str → Str
  | [] => []
  | [l] => l
  | l :: ls => l ++ '\n' :: joinLines ls

/-- Embedding of `cleanText` in `pdf-parser.ts` (lines 299-311 of the combined file):
collapse space runs, collapse newline runs, trim each line, final trim.
No tab replacement and no blank-line removal on this path. -/
def cleanTextPDF (s : Str) : Str :=
  trimStr (joinLines (((splitLines (collapseNL (collapseSP s)))).map trimStr))

/-- Embedding of `cleanText` in `docx-parser.ts` (lines 149-164): additionally replaces tabs
by spaces (after the two collapsing steps) and removes the lines that are empty
after trimming. -/
def cleanTextDOCX (s : Str) : Str :=
  trimStr (joinLines ((((splitLines (tabsToSp (collapseNL (collapseSP s)))).map
    trimStr)).filter fun l => decide (0 < l.length)))

/-! ## Format sniffer (`isValidPDFBuffer`, `isValidDOCXBuffer`) -/

/-- The five leading bytes `%PDF-`. -/
def pdfMagic : List Nat := [0x25, 0x50, 0x44, 0x46, 0x2D]

/-- Embedding of `isValidPDFBuffer`: `buffer.slice(0, 5).toString('utf-8') === '%PDF-'`.
A buffer shorter than five bytes yields a shorter string, which cannot be
equal, so the comparison is `take 5 = pdfMagic`. -/
def isValidPDFBuffer (b : List Nat) : Bool :=
  b.take 5 == pdfMagic

/-- Embedding of `isValidDOCXBuffer`: `header = buffer.slice(0, 2); header[0] === 0x50 &&
header[1] === 0x4B` — out-of-range indexing gives `undefined`, which compares
false. -/
def isValidDOCXBuffer (b : List Nat) : Bool :=
  match b with
  | b0 :: b1 :: _ => b0 == 0x50 && b1 == 0x4B
  | _ => false

/-! ## Input validation (`file-validation.ts`) -/

/-- The metadata and content of an uploaded `File`.  The Web `File` API
guarantees `size` equals the byte length of the content, so `size` is derived
(`fileSize`). -/
structure FileRec where
  name : Str
  type : Str
  bytes : List Nat
deriving DecidableEq

def fileSize (f : FileRec) : Nat := f.bytes.length

def MAX_FILE_SIZE : Nat := 10 * 1024 * 1024

def PDF_MIME : Str := str "application/pdf"

def DOCX_MIME : Str :=
  str "application/vnd.openxmlformats-officedocument.wordprocessingml.document"

/-- Keys of `ALLOWED_FILE_TYPES`. -/
def ALLOWED_MIME_TYPES : List Str := [PDF_MIME, DOCX_MIME]

def ALLOWED_EXTENSIONS : List Str := [str ".pdf", str ".docx"]

/-- JavaScript `toLowerCase` (ASCII range, the only one relevant to the allowlist). -/
def toLowerStr (s : Str) : Str := s.map Char.toLower

structure ValidationResult where
  valid : Bool
  error : Option Str
deriving DecidableEq

/-- Embedding of `validateFileType`: MIME type must be an allowlist key, and the lowercased
file name must end with one of the allowed extensions.  The two checks are
independent. -/
def validateFileType (f : FileRec) : ValidationResult :=
  let fileName := toLowerStr f.name
  if ¬ (ALLOWED_MIME_TYPES.contains f.type) then
    ⟨false, some (str "Invalid file type. Only PDF and DOCX files are allowed.")⟩
  else if ¬ (ALLOWED_EXTENSIONS.any fun ext => ext.isSuffixOf fileName) then
    ⟨false, some (str "Invalid file extension. Only .pdf and .docx files are allowed.")⟩
  else ⟨true, none⟩

/-- Decimal rendering of `size / 1MiB` with two digits, approximating
`toFixed(2)` (truncation instead of rounding; no claim depends on the digits).  -/
def sizeMBStr (size : Nat) : Str :=
  str (Nat.repr (size / (1024 * 1024))) ++ [ '.' ] ++
    str (Nat.repr ((size % (1024 * 1024)) * 100 / (1024 * 1024)))

/-- Embedding of `validateFileSize`: reject files above 10 MiB. -/
def validateFileSize (f : FileRec) : ValidationResult :=
  if fileSize f > MAX_FILE_SIZE then
    ⟨false, some (str "File size (" ++ sizeMBStr (fileSize f) ++
      str "MB) exceeds the maximum allowed size of 10MB.")⟩
  else ⟨true, none⟩

/-- Embedding of `validateFileNotEmpty`. -/
def validateFileNotEmpty (f : FileRec) : ValidationResult :=
  if fileSize f = 0 then
    ⟨false, some (str "File is empty. Please upload a valid resume file.")⟩
  else ⟨true, none⟩

/-- Embedding of `validateResumeFile`: emptiness, then declared type, then size,
short-circuiting on the first failure. -/
def validateResumeFile (f : FileRec) : ValidationResult :=
  let emptyCheck := validateFileNotEmpty f
  if emptyCheck.valid = false then emptyCheck
  else
    let typeCheck := validateFileType f
    if typeCheck.valid = false then typeCheck
    else
      let sizeCheck := validateFileSize f
      if sizeCheck.valid = false then sizeCheck
      else ⟨true, none⟩

/-- JavaScript `hay.includes(needle)`. -/
def strIncludes (needle hay : Str) : Bool := decide (needle <:+: hay)

/-! ## External parsing libraries, embedded as oracles

The pdf-parse and mammoth libraries are third-party code; only their observable
interface is embedded.  Spec-derived well-formedness predicates below state the
behaviour the specification attributes to them (magic-number rejection). -/

inductive PdfTextOutcome where
  | ok (text : Str) (pages : Nat)
  | err (msg : Str)
deriving DecidableEq

inductive MammothMsgType where
  | error
  | warning
deriving DecidableEq

structure MammothMessage where
  type : MammothMsgType
  message : Str
deriving DecidableEq

inductive MammothOutcome where
  | ok (value : Str) (messages : List MammothMessage)
  | err (msg : Str)
deriving DecidableEq

/-- Interface of the two external parsers: `parser.getText()` / `parser.getInfo()`
of pdf-parse (`err` is a thrown exception's message) and
`mammoth.extractRawText` (`err` likewise). -/
structure ExternalLibs where
  pdfGetText : List Nat → PdfTextOutcome
  pdfGetInfo : List Nat → Except Str Unit
  mammothExtractRawText : List Nat → MammothOutcome

/-- Modelled from the spec: the PDF parser's magic-number check — parsing a
buffer that does not begin with `%PDF-` throws an error whose message mentions
`Invalid PDF` (spec §4.3 `MALFORMED`, §8 "rejected by the PDF Extractor's
magic-number check with a MALFORMED-class failure"). -/
def PdfLibMagicSpec (libs : ExternalLibs) : Prop :=
  ∀ b, isValidPDFBuffer b = false →
    ∃ m, libs.pdfGetText b = .err m ∧ strIncludes (str "Invalid PDF") m = true

/-- Modelled from the spec: the DOCX path only extracts successfully from a
ZIP-based OWPML package, whose bytes begin with `PK` (spec §4.1, §4.4). -/
def MammothMagicSpec (libs : ExternalLibs) : Prop :=
  ∀ b v msgs, libs.mammothExtractRawText b = .ok v msgs → isValidDOCXBuffer b = true

/-! ## PDF extractor (`extractTextFromPDF`) -/

structure PDFParseResult where
  success : Bool
  text : Option Str
  error : Option Str
  pages : Option Nat
deriving DecidableEq

/-- Resource accounting for the pdf-parse handle: whether `new PDFParse(...)`
ran, and whether `parser.destroy()` ran before returning. -/
structure PdfRunTrace where
  acquired : Bool
  destroyed : Bool
deriving DecidableEq

/-- Embedding of the `catch` block of `extractTextFromPDF`: reclassify a thrown
message by substring. -/
def classifyPdfCatch (m : Str) : Str :=
  if strIncludes (str "Invalid PDF") m then
    str "Invalid PDF file. The file may be corrupted or not a valid PDF."
  else if strIncludes (str "password") m then
    str "PDF is password-protected. Please upload an unprotected file."
  else str "PDF parsing failed: " ++ m

/-- Embedding of `extractTextFromPDF` (`pdf-parser.ts` lines 216-293), paired
with the resource trace.  The source calls `parser.destroy()` after `getText()`
and `getInfo()` both return; a throw from either jumps to the catch block
without reaching `destroy()`. -/
def extractTextFromPDF (libs : ExternalLibs) (buffer : List Nat) :
    PDFParseResult × PdfRunTrace :=
  if buffer.length = 0 then
    (⟨false, none, some (str "PDF buffer is empty"), none⟩, ⟨false, false⟩)
  else
    match libs.pdfGetText buffer with
    | .err m => (⟨false, none, some (classifyPdfCatch m), none⟩, ⟨true, false⟩)
    | .ok text pages =>
      match libs.pdfGetInfo buffer with
      | .error m => (⟨false, none, some (classifyPdfCatch m), none⟩, ⟨true, false⟩)
      | .ok _ =>
        if trimStr text = [] then
          (⟨false, none,
            some (str "No text content found in PDF. The file might be image-based or corrupted."),
            none⟩, ⟨true, true⟩)
        else
          (⟨true, some (cleanTextPDF text), none, some pages⟩, ⟨true, true⟩)

/-! ## DOCX extractor (`extractTextFromDOCX`) -/

structure DOCXParseResult where
  success : Bool
  text : Option Str
  error : Option Str
  warnings : Option (List Str)
deriving DecidableEq

/-- JavaScript `array.join(sep)`. -/
def joinSep (sep : Str) : List Str → Str
  | [] => []
  | [x] => x
  | x :: xs => x ++ sep ++ joinSep sep xs

/-- Embedding of the `catch` block of `extractTextFromDOCX`. -/
def classifyDocxCatch (m : Str) : Str :=
  if strIncludes (str "not a valid") m then
    str "Invalid DOCX file. The file may be corrupted or not a valid DOCX format."
  else if strIncludes (str "zip") m then
    str "DOCX file structure is invalid. The file may be corrupted."
  else str "DOCX parsing failed: " ++ m

/-- Embedding of `extractTextFromDOCX` (`docx-parser.ts` lines 22-107). -/
def extractTextFromDOCX (libs : ExternalLibs) (buffer : List Nat) : DOCXParseResult :=
  if buffer.length = 0 then
    ⟨false, none, some (str "DOCX buffer is empty"), none⟩
  else
    match libs.mammothExtractRawText buffer with
    | .err m => ⟨false, none, some (classifyDocxCatch m), none⟩
    | .ok value messages =>
      if messages.any (fun msg => msg.type = .error) then
        ⟨false, none,
          some (str "DOCX parsing errors: " ++
            joinSep (str "; ")
              ((messages.filter fun msg => msg.type = .error).map (·.message))),
          none⟩
      else if trimStr value = [] then
        ⟨false, none,
          some (str "No text content found in DOCX. The file might be empty or corrupted."),
          none⟩
      else
        let warnings := (messages.filter fun msg => msg.type = .warning).map (·.message)
        ⟨true, some (cleanTextDOCX value), none,
          if 0 < warnings.length then some warnings else none⟩

/-! ## Ingestion orchestrator (`parseResume`) and deletion (`deleteResume`) -/

/-- A row of the `resumes` table. -/
structure ResumeRow where
  id : Nat
  user_id : Str
  title : Str
  file_url : Str
  raw_text : Str
  file_size : Nat
  file_type : Str
deriving DecidableEq

/-- State of the external Supabase collaborators: paths present in the
`resumes` storage bucket, rows of the `resumes` table, and the id the next
insert returns. -/
structure SupaState where
  blobs : List Str
  resumes : List ResumeRow
  nextId : Nat
deriving DecidableEq

/-- Environment of one request: the parser libraries, the authenticated user
(`supabase.auth.getUser()`), the timestamp string used in the storage path, the
public-URL base (everything before `/resumes/{path}` in `getPublicUrl`), and
injected failures of the storage upload, the datastore insert (with its
internal error message) and the datastore delete. -/
structure SupaEnv where
  libs : ExternalLibs
  user : Option Str
  timestampStr : Str
  urlBase : Str
  uploadErr : Option Str
  insertErr : Option Str
  deleteErr : Bool

/-- Character class kept by `file.name.replace(/[^a-zA-Z0-9._-]/g, '_')`. -/
def isFilenameSafe (c : Char) : Bool :=
  ('a' ≤ c && c ≤ 'z') || ('A' ≤ c && c ≤ 'Z') || ('0' ≤ c && c ≤ '9') ||
    c == '.' || c == '_' || c == '-'

def sanitizeFilename (name : Str) : Str :=
  name.map fun c => if isFilenameSafe c then c else '_'

/-- Storage path generated by `uploadResumeFile`:
`${userId}/${timestamp}_${safeFilename}`. -/
def uploadPath (env : SupaEnv) (userId : Str) (f : FileRec) : Str :=
  userId ++ str "/" ++ env.timestampStr ++ str "_" ++ sanitizeFilename f.name

structure UploadResult where
  success : Bool
  error : Option Str
  filePath : Option Str
  fileUrl : Option Str
deriving DecidableEq

/-- Embedding of `uploadResumeFile`: upload with `upsert: false` (fails when the
path already exists), then `getPublicUrl`. -/
def uploadResumeFile (env : SupaEnv) (f : FileRec) (userId : Str) (st : SupaState) :
    UploadResult × SupaState :=
  let filePath := uploadPath env userId f
  match env.uploadErr with
  | some m => (⟨false, some (str "Failed to upload file: " ++ m), none, none⟩, st)
  | none =>
    if filePath ∈ st.blobs then
      (⟨false, some (str "Failed to upload file: The resource already exists"),
        none, none⟩, st)
    else
      (⟨true, none, some filePath, some (env.urlBase ++ str "/resumes/" ++ filePath)⟩,
       { st with blobs := filePath :: st.blobs })

structure ExtractFileResult where
  success : Bool
  error : Option Str
  text : Option Str
deriving DecidableEq

/-- Embedding of `extractTextFromFile`: dispatch on the declared MIME type or
the lowercased filename extension. -/
def extractTextFromFile (libs : ExternalLibs) (f : FileRec) : ExtractFileResult :=
  if f.type = PDF_MIME ∨ (str ".pdf").isSuffixOf (toLowerStr f.name) then
    let r := (extractTextFromPDF libs f.bytes).1
    ⟨r.success, r.error, r.text⟩
  else if f.type = DOCX_MIME ∨ (str ".docx").isSuffixOf (toLowerStr f.name) then
    let r := extractTextFromDOCX libs f.bytes
    ⟨r.success, r.error, r.text⟩
  else
    ⟨false, some (str "Unsupported file type"), none⟩

/-- JavaScript `word.charAt(0).toUpperCase() + word.slice(1).toLowerCase()`. -/
def capitalizeWord : Str → Str
  | [] => []
  | c :: rest => Char.toUpper c :: toLowerStr rest

/-- JavaScript `s.split(sep)` for a single-character separator. -/
def splitOnCh (sep : Char) : Str → List Str
  | [] => [[]]
  | c :: rest =>
    if c = sep then [] :: splitOnCh sep rest
    else
      match splitOnCh sep rest with
      | [] => [[c]]
      | l :: ls => (c :: l) :: ls

/-- Embedding of `generateResumeTitle`: strip a final `.pdf`/`.docx`
(case-insensitively), map `_`/`-` to spaces, capitalize each space-separated
word, default to `Untitled Resume`. -/
def generateResumeTitle (filename : Str) : Str :=
  let nameWithoutExt :=
    if (str ".pdf").isSuffixOf (toLowerStr filename) then filename.take (filename.length - 4)
    else if (str ".docx").isSuffixOf (toLowerStr filename) then filename.take (filename.length - 5)
    else filename
  let cleaned := nameWithoutExt.map fun c => if c = '_' ∨ c = '-' then ' ' else c
  let title := joinSep (str " ") ((splitOnCh ' ' cleaned).map capitalizeWord)
  if title = [] then str "Untitled Resume" else title

structure ParseResumeData where
  resumeId : Nat
  title : Str
  fileUrl : Str
  textPreview : Str
deriving DecidableEq

structure ParseResumeResult where
  success : Bool
  error : Option Str
  data : Option ParseResumeData
deriving DecidableEq

/-- Embedding of the `parseResume` server action.  The `FormData` access is
embedded as the two optional arguments (`title` is `undefined` when the form
field is missing or empty, per `(formData.get('title') as string) || undefined`,
so an empty-string title is treated as absent). -/
def parseResume (env : SupaEnv) (st : SupaState) (file? : Option FileRec)
    (title? : Option Str) : ParseResumeResult × SupaState :=
  match file? with
  | none => (⟨false, some (str "No file provided"), none⟩, st)
  | some file =>
    let validation := validateResumeFile file
    if validation.valid = false then
      (⟨false, validation.error, none⟩, st)
    else
      match env.user with
      | none => (⟨false, some (str "You must be logged in to upload a resume"), none⟩, st)
      | some userId =>
        let up := uploadResumeFile env file userId st
        if up.1.success = false then
          (⟨false, up.1.error, none⟩, up.2)
        else
          let filePath := up.1.filePath.getD []
          let fileUrl := up.1.fileUrl.getD []
          let extractionResult := extractTextFromFile env.libs file
          if extractionResult.success = false then
            (⟨false, extractionResult.error, none⟩,
             { up.2 with blobs := up.2.blobs.erase filePath })
          else
            let fileType := if file.type = PDF_MIME then str "pdf" else str "docx"
            let resumeTitle :=
              match title? with
              | some t => if t = [] then generateResumeTitle file.name else t
              | none => generateResumeTitle file.name
            let rawText := extractionResult.text.getD []
            match env.insertErr with
            | some _ =>
              (⟨false, some (str "Failed to save resume to database"), none⟩,
               { up.2 with blobs := up.2.blobs.erase filePath })
            | none =>
              let row : ResumeRow :=
                ⟨st.nextId, userId, resumeTitle, fileUrl, rawText, fileSize file, fileType⟩
              (⟨true, none, some ⟨st.nextId, resumeTitle, fileUrl, rawText.take 500 ++ str "..."⟩⟩,
               ⟨up.2.blobs, up.2.resumes ++ [row], st.nextId + 1⟩)

/-- JavaScript `url.split(sep)` for a non-empty multi-character separator
(used with `'/resumes/'`). -/
def splitOnStr (sep : Str) (s : Str) : List Str :=
  match s with
  | [] => [[]]
  | c :: rest =>
    if h : sep ≠ [] ∧ sep.isPrefixOf (c :: rest) then
      [] :: splitOnStr sep ((c :: rest).drop sep.length)
    else
      match splitOnStr sep rest with
      | [] => [[c]]
      | l :: ls => (c :: l) :: ls
termination_by s.length
decreasing_by
  · simp only [List.length_drop]
    have : 1 ≤ sep.length := by
      cases hs : sep with
      | nil => exact absurd hs h.1
      | cons a t => simp
    simp only [List.length_cons]
    omega
  · simp

/-- Embedding of `extractFilePathFromUrl`: split on `'/resumes/'`; the path is
returned only when the split yields exactly two parts. -/
def extractFilePathFromUrl (url : Str) (userId : Str) : Option Str :=
  let parts := splitOnStr (str "/resumes/") url
  if parts.length = 2 then some (parts.getD 1 []) else none

structure DeleteResult where
  success : Bool
  error : Option Str
deriving DecidableEq

/-- Embedding of the `deleteResume` server action. -/
def deleteResume (env : SupaEnv) (st : SupaState) (resumeId : Nat) :
    DeleteResult × SupaState :=
  match st.resumes.find? (fun r => r.id == resumeId) with
  | none => (⟨false, some (str "Resume not found")⟩, st)
  | some resume =>
    match env.user with
    | none => (⟨false, some (str "Unauthorized")⟩, st)
    | some uid =>
      if uid ≠ resume.user_id then
        (⟨false, some (str "Unauthorized")⟩, st)
      else
        let filePath := extractFilePathFromUrl resume.file_url uid
        if env.deleteErr then
          (⟨false, some (str "Failed to delete resume")⟩, st)
        else
          let st1 := { st with resumes := st.resumes.filter fun r => ¬ (r.id = resumeId) }
          match filePath with
          | some p => (⟨true, none⟩, { st1 with blobs := st1.blobs.erase p })
          | none => (⟨true, none⟩, st1)

/-! ## Predicates used to state the claims -/

/-- Wording of claim C5: the MIME string and the extension "agree with at least
one allowed pair" (`application/pdf` with `.pdf`, or the OWPML MIME with
`.docx`).  Stated from the claim, for comparison with `validateFileType`. -/
def mimeExtAgree (f : FileRec) : Prop :=
  (f.type = PDF_MIME ∧ (str ".pdf").isSuffixOf (toLowerStr f.name) = true) ∨
  (f.type = DOCX_MIME ∧ (str ".docx").isSuffixOf (toLowerStr f.name) = true)

instance : DecidablePred mimeExtAgree := fun f => by
  unfold mimeExtAgree; infer_instance

/-- Wording of claim C3: the persisted format tag is consistent with the magic
bytes sniffed from the buffer. -/
def formatConsistent (tag : Str) (bytes : List Nat) : Prop :=
  (tag = str "pdf" ∧ isValidPDFBuffer bytes = true) ∨
  (tag = str "docx" ∧ isValidDOCXBuffer bytes = true)

instance (tag : Str) (bytes : List Nat) : Decidable (formatConsistent tag bytes) := by
  unfold formatConsistent; infer_instance

/-! ## Normal-form predicates for the normalizer (claims C2, C9) -/

/-- Whitespace other than the newline itself (what trimming a single line
removes). -/
def lineWS (c : Char) : Bool := isWS c && !(c == '\n')

/-- Adjacent-pair relation: not two consecutive spaces. -/
def SpacedOk (a b : Char) : Prop := ¬ (a = ' ' ∧ b = ' ')

/-- Adjacent-pair relation: no line-whitespace directly after or before a
newline (char-level version of "every line is trimmed"). -/
def EdgeOk (a b : Char) : Prop :=
  ¬ (a = '\n' ∧ lineWS b = true) ∧ ¬ (lineWS a = true ∧ b = '\n')

/-- Adjacent-pair relation: not two consecutive newlines. -/
def NoNN (a b : Char) : Prop := ¬ (a = '\n' ∧ b = '\n')

/-- No run of two or more spaces. -/
def NoSpRun (s : Str) : Prop := List.Chain' SpacedOk s

/-- No two adjacent newlines. -/
def NoNNRun (s : Str) : Prop := List.Chain' NoNN s

/-- No run of three or more newlines. -/
def NoTripleNL (s : Str) : Prop := ¬ (['\n', '\n', '\n'] <:+: s)

/-- Char-level statement that every line of `s` is trimmed. -/
def LinesTrimmedCh (s : Str) : Prop :=
  List.Chain' EdgeOk s ∧ (∀ c ∈ s.head?, lineWS c = false) ∧
    (∀ c ∈ s.getLast?, lineWS c = false)

/-- Both edges of the whole string are non-whitespace (holds of any `trimStr`
output). -/
def EdgesNotWS (s : Str) : Prop :=
  (∀ c ∈ s.head?, isWS c = false) ∧ (∀ c ∈ s.getLast?, isWS c = false)

/-! ## Concrete fixtures for witnesses -/

/-- Toy instantiation of the external parsers, conforming to
`PdfLibMagicSpec` / `MammothMagicSpec`. -/
def wLibs : ExternalLibs :=
  { pdfGetText := fun b =>
      if isValidPDFBuffer b then .ok (str "Hello World") 1
      else .err (str "Invalid PDF structure")
    pdfGetInfo := fun _ => .ok ()
    mammothExtractRawText := fun b =>
      if isValidDOCXBuffer b then .ok (str "Hello Docx") []
      else .err (str "Could not find file in options object: not a valid zip") }

def wPdfBytes : List Nat := [0x25, 0x50, 0x44, 0x46, 0x2D, 0x31]

def wFilePdf : FileRec := ⟨str "r.pdf", PDF_MIME, wPdfBytes⟩

/-- OWPML MIME type but a `.pdf` filename over genuine PDF bytes (claim C3). -/
def wFileMismatch : FileRec := ⟨str "x.pdf", DOCX_MIME, wPdfBytes⟩

def wEnv : SupaEnv :=
  { libs := wLibs
    user := some (str "u1")
    timestampStr := str "2026-01-01T00-00-00-000Z"
    urlBase := str "https://proj.supabase.co/storage/v1/object/public"
    uploadErr := none
    insertErr := none
    deleteErr := false }

def wEnvInsertFail : SupaEnv :=
  { wEnv with insertErr := some (str "duplicate key value violates unique constraint") }

def wSt : SupaState := ⟨[], [], 7⟩

def wRowA : ResumeRow :=
  ⟨1, str "userA", str "My Resume",
   str "https://proj.supabase.co/storage/v1/object/public/resumes/userA/f.pdf",
   str "text", 3, str "pdf"⟩

/-- An owned row whose stored URL does not contain `/resumes/` (claim C10). -/
def wRowExternal : ResumeRow :=
  ⟨2, str "userA", str "Old", str "https://cdn.example.com/other/f.pdf",
   str "text", 3, str "pdf"⟩

def wStDel : SupaState := ⟨[str "userA/f.pdf"], [wRowA, wRowExternal], 9⟩

def wEnvA : SupaEnv := { wEnv with user := some (str "userA") }

def wEnvB : SupaEnv := { wEnv with user := some (str "userB") }

/-! # Theorems

General-purpose bridging lemmas first, then one theorem per claim (plus a
witness or counterexample where required). -/

theorem boolSuffixIff (l₁ l₂ : Str) : l₁.isSuffixOf l₂ = true ↔ l₁ <:+ l₂ :=
  List.isSuffixOf_iff_suffix

theorem boolPrefixIff (l₁ l₂ : Str) : l₁.isPrefixOf l₂ = true ↔ l₁ <+: l₂ :=
  List.isPrefixOf_iff_prefix

theorem chainOfInfix {R : Char → Char → Prop} {l l' : Str}
    (h : List.Chain' R l) (h2 : l' <:+: l) : List.Chain' R l' :=
  List.Chain'.infix h h2

theorem infixTrans {l₁ l₂ l₃ : Str} (h : l₁ <:+: l₂) (h2 : l₂ <:+: l₃) :
    l₁ <:+: l₃ := h.trans h2

theorem infixOfCons {a : Char} {l₁ l₂ : Str} (h : l₁ <:+: l₂) : l₁ <:+: a :: l₂ := by
  obtain ⟨s, t, hst⟩ := h
  exact ⟨a :: s, t, by simp [← hst]⟩

/-! ## Shared helper lemmas about the validators and extractors -/

theorem validTypeCharacterization (f : FileRec) :
    (validateFileType f).valid = true ↔
      (f.type = PDF_MIME ∨ f.type = DOCX_MIME) ∧
      (str ".pdf" <:+ toLowerStr f.name ∨ str ".docx" <:+ toLowerStr f.name) := by
  by_cases h1 : f.type = PDF_MIME ∨ f.type = DOCX_MIME <;>
    by_cases h2 : str ".pdf" <:+ toLowerStr f.name ∨ str ".docx" <:+ toLowerStr f.name <;>
    simp_all [validateFileType, ALLOWED_MIME_TYPES, ALLOWED_EXTENSIONS]

theorem validateResumeFile_typeValid (f : FileRec)
    (hv : (validateResumeFile f).valid = true) : (validateFileType f).valid = true := by
  simp only [validateResumeFile] at hv
  split_ifs at hv with h1 h2 h3 <;> simp_all [Bool.not_eq_false]

theorem validateResumeFile_nonempty (f : FileRec)
    (hv : (validateResumeFile f).valid = true) : f.bytes ≠ [] := by
  intro h0
  have hz : fileSize f = 0 := by simp [fileSize, h0]
  simp [validateResumeFile, validateFileNotEmpty, hz] at hv

theorem pdfSuccessOk (libs : ExternalLibs) (b : List Nat)
    (h : (extractTextFromPDF libs b).1.success = true) :
    ∃ t p, libs.pdfGetText b = .ok t p := by
  by_cases hb : b.length = 0
  · simp [extractTextFromPDF, hb] at h
  · cases hgt : libs.pdfGetText b with
    | err m => simp [extractTextFromPDF, hb, hgt] at h
    | ok t p => exact ⟨t, p, rfl⟩

theorem docxSuccessOk (libs : ExternalLibs) (b : List Nat)
    (h : (extractTextFromDOCX libs b).success = true) :
    ∃ v msgs, libs.mammothExtractRawText b = .ok v msgs := by
  by_cases hb : b.length = 0
  · simp [extractTextFromDOCX, hb] at h
  · cases hgt : libs.mammothExtractRawText b with
    | err m => simp [extractTextFromDOCX, hb, hgt] at h
    | ok v msgs => exact ⟨v, msgs, rfl⟩

theorem wLibs_pdfSpec : PdfLibMagicSpec wLibs := by
  intro b hb
  refine ⟨str "Invalid PDF structure", ?_, by decide⟩
  simp [wLibs, hb]

theorem wLibs_mamSpec : MammothMagicSpec wLibs := by
  intro b v msgs h
  by_contra hbad
  have hb : isValidDOCXBuffer b = false := by
    revert hbad
    cases isValidDOCXBuffer b <;> simp
  simp [wLibs, hb] at h

theorem splitOnStr_no_occurrence (sep s : Str) (h : ¬ sep <:+: s) :
    splitOnStr sep s = [s] := by
  induction s with
  | nil => simp [splitOnStr]
  | cons c rest ih =>
    have hpre : ¬ (sep ≠ [] ∧ sep.isPrefixOf (c :: rest)) := by
      rintro ⟨-, hp⟩
      exact h ((boolPrefixIff _ _).mp hp).isInfix
    rw [splitOnStr]
    simp only [hpre, dite_false]
    rw [ih fun hx => h (infixOfCons hx)]

theorem extractFilePathFromUrl_none (url u : Str) (h : ¬ (str "/resumes/") <:+: url) :
    extractFilePathFromUrl url u = none := by
  unfold extractFilePathFromUrl
  rw [splitOnStr_no_occurrence _ _ h]
  simp

/-! ## Claim C1 -/

/-- Claim C1 (confirmed): when the datastore insert fails after blob upload and
text extraction both succeeded, `parseResume` removes the blob at the generated
path (so it is absent from the final storage state), leaves the datastore rows
untouched, and returns the generic message `Failed to save resume to database`
regardless of the datastore's internal error `m`, which is not surfaced. -/
theorem C1_persist_failure_rolls_back_blob (env : SupaEnv) (st : SupaState)
    (f : FileRec) (title? : Option Str) (u m : Str)
    (huser : env.user = some u)
    (hv : (validateResumeFile f).valid = true)
    (hup : env.uploadErr = none)
    (hfresh : uploadPath env u f ∉ st.blobs)
    (hex : (extractTextFromFile env.libs f).success = true)
    (hins : env.insertErr = some m) :
    parseResume env st (some f) title? =
      (⟨false, some (str "Failed to save resume to database"), none⟩, st) := by
  simp [parseResume, hv, huser, uploadResumeFile, hup, hfresh, hex, hins,
    List.erase_cons_head]

/-- Witness for C1 at a concrete run: toy parsers, a fresh store, a valid PDF
upload, and an injected insert failure. -/
theorem C1_witness :
    wEnvInsertFail.user = some (str "u1") ∧
    (validateResumeFile wFilePdf).valid = true ∧
    (extractTextFromFile wEnvInsertFail.libs wFilePdf).success = true ∧
    parseResume wEnvInsertFail wSt (some wFilePdf) none =
      (⟨false, some (str "Failed to save resume to database"), none⟩, wSt) :=
  ⟨by decide, by decide, by decide,
    C1_persist_failure_rolls_back_blob wEnvInsertFail wSt wFilePdf none
      (str "u1") (str "duplicate key value violates unique constraint")
      (by decide) (by decide) (by decide) (by decide) (by decide) (by decide)⟩

/-! ## Claim C3 -/

/-- Claim C3 as stated is false: `parseResume` derives the persisted format tag
from the declared MIME type alone (`file.type === 'application/pdf' ? 'pdf' :
'docx'`).  A file declaring the OWPML MIME but named `.pdf` over genuine PDF
bytes is dispatched (by filename) to the PDF extractor, succeeds, and is stored
with tag `docx`, which is inconsistent with the sniffed `%PDF-` magic — even
though the toy parsers conform to the spec-modelled magic-number behaviour. -/
theorem C3_counterexample :
    PdfLibMagicSpec wLibs ∧ MammothMagicSpec wLibs ∧
    (parseResume wEnv wSt (some wFileMismatch) none).1.success = true ∧
    ((parseResume wEnv wSt (some wFileMismatch) none).2.resumes.map
      (fun r => r.file_type)) = [str "docx"] ∧
    isValidPDFBuffer wFileMismatch.bytes = true ∧
    ¬ formatConsistent (str "docx") wFileMismatch.bytes :=
  ⟨wLibs_pdfSpec, wLibs_mamSpec, by decide, by decide, by decide, by decide⟩

/-- Claim C3 (corrected): excluding the one mismatched combination (declared
OWPML MIME together with a `.pdf` filename), every record created by a
successful ingestion carries a format tag consistent with the magic bytes
sniffed from the uploaded buffer, provided the external parsers only succeed on
buffers with the corresponding magic (spec-modelled `PdfLibMagicSpec` /
`MammothMagicSpec`). -/
theorem C3_format_tag_consistency_amended (env : SupaEnv) (st : SupaState)
    (f : FileRec) (title? : Option Str)
    (hpdfspec : PdfLibMagicSpec env.libs)
    (hmam : MammothMagicSpec env.libs)
    (hexcl : ¬ (f.type = DOCX_MIME ∧ str ".pdf" <:+ toLowerStr f.name))
    (hsuccess : (parseResume env st (some f) title?).1.success = true) :
    ∃ row : ResumeRow,
      (parseResume env st (some f) title?).2.resumes = st.resumes ++ [row] ∧
      formatConsistent row.file_type f.bytes := by
  by_cases hval : (validateResumeFile f).valid = false
  · simp [parseResume, hval] at hsuccess
  have hval' : (validateResumeFile f).valid = true := by
    revert hval
    cases (validateResumeFile f).valid <;> simp
  cases huser : env.user with
  | none => simp [parseResume, hval', huser] at hsuccess
  | some uid =>
  cases hupErr : env.uploadErr with
  | some m => simp [parseResume, hval', huser, uploadResumeFile, hupErr] at hsuccess
  | none =>
  by_cases hmem : uploadPath env uid f ∈ st.blobs
  · simp [parseResume, hval', huser, uploadResumeFile, hupErr, hmem] at hsuccess
  cases hext : (extractTextFromFile env.libs f).success with
  | false =>
    simp [parseResume, hval', huser, uploadResumeFile, hupErr, hmem, hext] at hsuccess
  | true =>
  cases hins : env.insertErr with
  | some m2 =>
    simp [parseResume, hval', huser, uploadResumeFile, hupErr, hmem, hext, hins] at hsuccess
  | none =>
  simp only [parseResume, hval', huser, uploadResumeFile, hupErr, hmem, hext, hins]
  simp [hmem]
  by_cases hpdf : f.type = PDF_MIME
  · have hex2 : (extractTextFromPDF env.libs f.bytes).1.success = true := by
      have hh := hext
      simp [extractTextFromFile, hpdf] at hh
      exact hh
    obtain ⟨t, p, hok⟩ := pdfSuccessOk _ _ hex2
    have hmagT : isValidPDFBuffer f.bytes = true := by
      by_contra hbad
      have hbadB : isValidPDFBuffer f.bytes = false := by
        revert hbad
        cases isValidPDFBuffer f.bytes <;> simp
      obtain ⟨m, hm, -⟩ := hpdfspec f.bytes hbadB
      rw [hok] at hm
      exact PdfTextOutcome.noConfusion hm
    exact Or.inl ⟨by simp [hpdf], hmagT⟩
  · have hdisj := (validTypeCharacterization f).mp (validateResumeFile_typeValid f hval')
    have hdocx : f.type = DOCX_MIME := by tauto
    have hnsuf : (str ".pdf").isSuffixOf (toLowerStr f.name) = false := by
      rw [← Bool.not_eq_true, boolSuffixIff]
      exact fun hs => hexcl ⟨hdocx, hs⟩
    have hex2 : (extractTextFromDOCX env.libs f.bytes).success = true := by
      have hh := hext
      simp [extractTextFromFile, hpdf, hdocx, hnsuf] at hh
      exact hh
    obtain ⟨v, msgs, hok⟩ := docxSuccessOk _ _ hex2
    exact Or.inr ⟨by simp [hpdf], hmam f.bytes v msgs hok⟩

/-- Witness for the amended C3 at a concrete successful ingestion. -/
theorem C3_witness :
    (parseResume wEnv wSt (some wFilePdf) none).1.success = true ∧
    ∃ row : ResumeRow,
      (parseResume wEnv wSt (some wFilePdf) none).2.resumes = wSt.resumes ++ [row] ∧
      formatConsistent row.file_type wFilePdf.bytes :=
  ⟨by decide,
    C3_format_tag_consistency_amended wEnv wSt wFilePdf none
      wLibs_pdfSpec wLibs_mamSpec (by decide) (by decide)⟩

/-! ## Claim C4 -/

/-- Claim C4 (confirmed): a nonempty buffer that passed validation as declared
`application/pdf` but whose bytes do not start with `%PDF-` is rejected by the
PDF extraction path with the MALFORMED-class message (`Invalid PDF file. ...`),
which differs from the EMPTY_INPUT and NO_TEXT messages.  The underlying
magic-number rejection of pdf-parse is spec-modelled by `PdfLibMagicSpec`. -/
theorem C4_pdf_bad_magic_malformed (libs : ExternalLibs) (f : FileRec)
    (hspec : PdfLibMagicSpec libs)
    (hty : f.type = PDF_MIME)
    (hv : (validateResumeFile f).valid = true)
    (hmagic : isValidPDFBuffer f.bytes = false) :
    extractTextFromFile libs f =
      ⟨false, some (str "Invalid PDF file. The file may be corrupted or not a valid PDF."),
       none⟩ ∧
    str "Invalid PDF file. The file may be corrupted or not a valid PDF." ≠
      str "PDF buffer is empty" ∧
    str "Invalid PDF file. The file may be corrupted or not a valid PDF." ≠
      str "No text content found in PDF. The file might be image-based or corrupted." := by
  have hne := validateResumeFile_nonempty f hv
  obtain ⟨m, hm, hinf⟩ := hspec f.bytes hmagic
  refine ⟨?_, by decide, by decide⟩
  simp [extractTextFromFile, hty, extractTextFromPDF, List.length_eq_zero, hne, hm,
    classifyPdfCatch, hinf]

/-- A file declared and named PDF whose single byte is not `%PDF-`. -/
theorem C4_witness :
    PdfLibMagicSpec wLibs ∧
    (validateResumeFile ⟨str "bad.pdf", PDF_MIME, [0x00]⟩).valid = true ∧
    isValidPDFBuffer [0x00] = false ∧
    extractTextFromFile wLibs ⟨str "bad.pdf", PDF_MIME, [0x00]⟩ =
      ⟨false, some (str "Invalid PDF file. The file may be corrupted or not a valid PDF."),
       none⟩ :=
  ⟨wLibs_pdfSpec, by decide, by decide,
    (C4_pdf_bad_magic_malformed wLibs ⟨str "bad.pdf", PDF_MIME, [0x00]⟩
      wLibs_pdfSpec (by decide) (by decide) (by decide)).1⟩

/-! ## Claim C7 -/

/-- Claim C7 is the spec's intent but the code violates it (code bug): when the
parser's `getText()` throws — e.g. on a nonempty buffer without `%PDF-` magic,
where the spec-conforming parser throws `Invalid PDF structure` — control jumps
to the catch block and returns without calling `parser.destroy()`, although the
parser handle was acquired.  The trace records `acquired = true`,
`destroyed = false` on this error exit path. -/
theorem C7_destroy_skipped_on_parser_throw :
    (extractTextFromPDF wLibs [0x00]).2.acquired = true ∧
    (extractTextFromPDF wLibs [0x00]).2.destroyed = false ∧
    (extractTextFromPDF wLibs [0x00]).1.success = false ∧
    (extractTextFromPDF wLibs wPdfBytes).2.destroyed = true := by decide

/-! ## Claim C5 -/

/-- Claim C5 as stated is false: `validateFileType` checks the MIME string and
the extension independently, so the mismatched combination `application/pdf`
with a `.docx` filename passes although it agrees with no allowed pair. -/
theorem C5_counterexample :
    (validateFileType ⟨str "x.docx", PDF_MIME, []⟩).valid = true ∧
    ¬ mimeExtAgree ⟨str "x.docx", PDF_MIME, []⟩ := by decide

/-- Claim C5 (corrected): `validateFileType` succeeds exactly when the MIME
string is one of the two allowlisted types AND the lowercased filename ends in
one of the allowed extensions — the two checks are independent, so mismatched
pairs also pass; every failure carries one of the two explicit messages naming
the allowed formats. -/
theorem C5_validate_file_type_amended (f : FileRec) :
    ((validateFileType f).valid = true ↔
      (f.type = PDF_MIME ∨ f.type = DOCX_MIME) ∧
      (str ".pdf" <:+ toLowerStr f.name ∨ str ".docx" <:+ toLowerStr f.name)) ∧
    ((validateFileType f).valid = false →
      (validateFileType f).error =
        some (str "Invalid file type. Only PDF and DOCX files are allowed.") ∨
      (validateFileType f).error =
        some (str "Invalid file extension. Only .pdf and .docx files are allowed.")) := by
  by_cases h1 : f.type = PDF_MIME ∨ f.type = DOCX_MIME <;>
    by_cases h2 : str ".pdf" <:+ toLowerStr f.name ∨ str ".docx" <:+ toLowerStr f.name <;>
    constructor <;>
    simp_all [validateFileType, ALLOWED_MIME_TYPES, ALLOWED_EXTENSIONS]

/-- Witness for the amended C5 at a concrete rejected file. -/
theorem C5_witness :
    (validateFileType ⟨str "resume.txt", str "text/plain", [1]⟩).error =
      some (str "Invalid file type. Only PDF and DOCX files are allowed.") := by
  have h := (C5_validate_file_type_amended ⟨str "resume.txt", str "text/plain", [1]⟩).2
    (by decide)
  rcases h with h | h
  · exact h
  · exact absurd h (by decide)

/-! ## Claim C6 -/

/-- Claim C6 as stated is false: the two-byte buffer `PK` is shorter than five
bytes, yet `isValidDOCXBuffer` classifies it as OWPML_ZIP rather than UNKNOWN. -/
theorem C6_counterexample :
    ([0x50, 0x4B] : List Nat).length < 5 ∧ isValidDOCXBuffer [0x50, 0x4B] = true := by
  decide

/-- Claim C6 (corrected): for buffers shorter than five bytes the sniffer never
classifies PDF (`isValidPDFBuffer` is false), and `isValidDOCXBuffer` holds
exactly when the buffer still has at least two bytes beginning `0x50 0x4B`;
both functions are total, so neither throws. -/
theorem C6_short_buffer_amended (b : List Nat) (h : b.length < 5) :
    isValidPDFBuffer b = false ∧
    (isValidDOCXBuffer b = true ↔ ∃ r, b = 0x50 :: 0x4B :: r) := by
  constructor
  · unfold isValidPDFBuffer
    rw [List.take_of_length_le (by omega)]
    cases hbeq : (b == pdfMagic) with
    | false => rfl
    | true =>
      have hb : b = pdfMagic := eq_of_beq hbeq
      rw [hb] at h
      simp [pdfMagic] at h
  · match b with
    | [] => simp [isValidDOCXBuffer]
    | [b0] => simp [isValidDOCXBuffer]
    | b0 :: b1 :: r => simp [isValidDOCXBuffer]

/-- Witness for the amended C6 at the two-byte `PK` buffer. -/
theorem C6_witness :
    ([0x50, 0x4B] : List Nat).length < 5 ∧
    (isValidPDFBuffer [0x50, 0x4B] = false ∧
      (isValidDOCXBuffer [0x50, 0x4B] = true ↔ ∃ r, ([0x50, 0x4B] : List Nat) = 0x50 :: 0x4B :: r)) :=
  ⟨by decide, C6_short_buffer_amended [0x50, 0x4B] (by decide)⟩

/-! ## Claim C8 -/

/-- Claim C8 (confirmed): an authenticated non-owner calling `deleteResume` on
an existing record receives the `Unauthorized` failure and the state — rows and
blobs — is returned unchanged. -/
theorem C8_delete_unauthorized_no_side_effects (env : SupaEnv) (st : SupaState)
    (resumeId : Nat) (r : ResumeRow) (u : Str)
    (hfind : st.resumes.find? (fun row => row.id == resumeId) = some r)
    (huser : env.user = some u) (hne : u ≠ r.user_id) :
    deleteResume env st resumeId = (⟨false, some (str "Unauthorized")⟩, st) := by
  simp [deleteResume, hfind, huser, hne]

/-- Witness for C8: user B deleting user A's record. -/
theorem C8_witness :
    wStDel.resumes.find? (fun row => row.id == 1) = some wRowA ∧
    wEnvB.user = some (str "userB") ∧
    str "userB" ≠ wRowA.user_id ∧
    deleteResume wEnvB wStDel 1 = (⟨false, some (str "Unauthorized")⟩, wStDel) :=
  ⟨by decide, by decide, by decide,
    C8_delete_unauthorized_no_side_effects wEnvB wStDel 1 wRowA (str "userB")
      (by decide) (by decide) (by decide)⟩

/-! ## Claim C10 -/

/-- Claim C10 (confirmed): when the owner deletes a record whose stored
`file_url` does not contain `/resumes/`, `extractFilePathFromUrl` yields no
path, so `deleteResume` deletes the datastore row, skips blob deletion
entirely (the blob set is unchanged), and returns success. -/
theorem C10_delete_foreign_url_skips_blob (env : SupaEnv) (st : SupaState)
    (resumeId : Nat) (r : ResumeRow) (u : Str)
    (hfind : st.resumes.find? (fun row => row.id == resumeId) = some r)
    (huser : env.user = some u) (hown : u = r.user_id)
    (hurl : ¬ (str "/resumes/") <:+: r.file_url)
    (hdel : env.deleteErr = false) :
    deleteResume env st resumeId =
      (⟨true, none⟩,
       ⟨st.blobs, st.resumes.filter (fun row => ¬ (row.id = resumeId)), st.nextId⟩) := by
  simp [deleteResume, hfind, huser, hown, hdel, extractFilePathFromUrl_none _ _ hurl]

/-- Witness for C10: the owner deletes the record with an external URL; the row
disappears, the blob set is untouched. -/
theorem C10_witness :
    wStDel.resumes.find? (fun row => row.id == 2) = some wRowExternal ∧
    ¬ (str "/resumes/") <:+: wRowExternal.file_url ∧
    deleteResume wEnvA wStDel 2 =
      (⟨true, none⟩,
       ⟨wStDel.blobs, wStDel.resumes.filter (fun row => ¬ (row.id = 2)), wStDel.nextId⟩) :=
  ⟨by decide, by decide,
    C10_delete_foreign_url_skips_blob wEnvA wStDel 2 wRowExternal (str "userA")
      (by decide) (by decide) (by decide) (by decide) (by decide)⟩

theorem dropWhile_head_prop (p : Char → Bool) (l : Str) :
    ∀ c ∈ (l.dropWhile p).head?, p c = false := by
  induction l with
  | nil => simp
  | cons a t ih =>
    cases hpa : p a with
    | true => simpa [List.dropWhile_cons, hpa] using ih
    | false => simp [List.dropWhile_cons, hpa]

theorem dropWhile_eq_self_of_head (p : Char → Bool) (l : Str)
    (h : ∀ c ∈ l.head?, p c = false) : l.dropWhile p = l := by
  cases l with
  | nil => rfl
  | cons a t =>
    rw [List.dropWhile_cons, if_neg]
    simp [h a (by simp)]

theorem prefixHeadEq {l₁ l₂ : Str} {c : Char} (h : l₁ <+: l₂)
    (hc : l₁.head? = some c) : l₂.head? = some c := by
  obtain ⟨t, rfl⟩ := h
  rw [List.head?_append, hc]
  rfl

theorem trimRev_eq {s : Str} :
    ∃ d2 : Str, trimStr s = d2.reverse ∧
      d2 = (s.dropWhile isWS).reverse.dropWhile isWS :=
  ⟨_, rfl, rfl⟩

theorem head_trim_notWS (s : Str) : ∀ c ∈ (trimStr s).head?, isWS c = false := by
  intro c hc
  set d1 := s.dropWhile isWS with hd1
  set d2 := d1.reverse.dropWhile isWS with hd2
  have htrim : trimStr s = d2.reverse := rfl
  rw [htrim] at hc
  have hsuf : d2 <:+ d1.reverse := List.dropWhile_suffix isWS
  obtain ⟨u, hu⟩ := hsuf
  have hpre : d2.reverse <+: d1 := by
    refine ⟨u.reverse, ?_⟩
    have := congrArg List.reverse hu
    simpa using this
  have hd1head : d1.head? = some c := prefixHeadEq hpre hc
  exact dropWhile_head_prop isWS s c (by rw [← hd1]; exact hd1head)

theorem last_trim_notWS (s : Str) : ∀ c ∈ (trimStr s).getLast?, isWS c = false := by
  intro c hc
  set d1 := s.dropWhile isWS with hd1
  set d2 := d1.reverse.dropWhile isWS with hd2
  have htrim : trimStr s = d2.reverse := rfl
  rw [htrim] at hc
  have hgl : d2.reverse.getLast? = d2.head? := by
    rw [← List.head?_reverse d2.reverse, List.reverse_reverse]
  rw [hgl] at hc
  exact dropWhile_head_prop isWS d1.reverse c hc

theorem edges_trim (s : Str) : EdgesNotWS (trimStr s) :=
  ⟨head_trim_notWS s, last_trim_notWS s⟩

theorem trimIsInfixOf (s : Str) : trimStr s <:+: s := by
  obtain ⟨u, hu⟩ := List.dropWhile_suffix (l := (s.dropWhile isWS).reverse) isWS
  obtain ⟨v, hv⟩ := List.dropWhile_suffix (l := s) isWS
  refine ⟨v, u.reverse, ?_⟩
  have h2 := congrArg List.reverse hu
  simp only [List.reverse_append, List.reverse_reverse] at h2
  rw [List.append_assoc, show trimStr s ++ u.reverse = s.dropWhile isWS from h2]
  exact hv

theorem trim_eq_self {s : Str} (h : EdgesNotWS s) : trimStr s = s := by
  unfold trimStr
  rw [dropWhile_eq_self_of_head isWS s h.1]
  rw [dropWhile_eq_self_of_head isWS s.reverse (by
    intro c hc
    rw [List.head?_reverse] at hc
    exact h.2 c hc)]
  exact List.reverse_reverse s

theorem trim_idem (s : Str) : trimStr (trimStr s) = trimStr s :=
  trim_eq_self (edges_trim s)

theorem trim_nil : trimStr [] = [] := rfl

theorem trim_all_ws {s : Str} (h : trimStr s = []) : ∀ c ∈ s, isWS c = true := by
  intro c hc
  have h2 : ((s.dropWhile isWS).reverse.dropWhile isWS).reverse = [] := h
  have hd2nil : (s.dropWhile isWS).reverse.dropWhile isWS = [] := by
    simpa using congrArg List.reverse h2
  have hall : ∀ x ∈ (s.dropWhile isWS).reverse, isWS x = true :=
    List.dropWhile_eq_nil_iff.mp hd2nil
  have hsplit : s.takeWhile isWS ++ s.dropWhile isWS = s :=
    List.takeWhile_append_dropWhile isWS s
  rw [← hsplit] at hc
  rcases List.mem_append.mp hc with hmem | hmem
  · exact List.mem_takeWhile_imp hmem
  · exact hall c (List.mem_reverse.mpr hmem)

theorem splitLines_ne_nil (s : Str) : splitLines s ≠ [] := by
  cases s with
  | nil => simp [splitLines]
  | cons c rest =>
    by_cases hc : c = '\n'
    · simp [splitLines, hc]
    · simp only [splitLines, hc, if_false]
      cases h : splitLines rest <;> simp

theorem join_split (s : Str) : joinLines (splitLines s) = s := by
  induction s with
  | nil => rfl
  | cons c rest ih =>
    by_cases hc : c = '\n'
    · subst hc
      simp only [splitLines, if_true]
      cases h : splitLines rest with
      | nil => exact absurd h (splitLines_ne_nil rest)
      | cons l ls =>
        show joinLines ([] :: l :: ls) = '\n' :: rest
        rw [show joinLines ([] :: l :: ls) = [] ++ '\n' :: joinLines (l :: ls) from rfl]
        rw [← h, ih]
        rfl
    · simp only [splitLines, hc, if_false]
      cases h : splitLines rest with
      | nil => exact absurd h (splitLines_ne_nil rest)
      | cons l ls =>
        cases ls with
        | nil =>
          show joinLines [c :: l] = c :: rest
          have : joinLines [l] = rest := by rw [← h, ih]
          simp only [joinLines] at this ⊢
          rw [this]
        | cons l2 ls2 =>
          show joinLines ((c :: l) :: l2 :: ls2) = c :: rest
          rw [show joinLines ((c :: l) :: l2 :: ls2) =
            (c :: l) ++ '\n' :: joinLines (l2 :: ls2) from rfl]
          have : joinLines (l :: l2 :: ls2) = rest := by rw [← h, ih]
          rw [show joinLines (l :: l2 :: ls2) =
            l ++ '\n' :: joinLines (l2 :: ls2) from rfl] at this
          rw [← this]
          rfl

theorem mem_split_no_nl (s : Str) : ∀ l ∈ splitLines s, '\n' ∉ l := by
  induction s with
  | nil => simp [splitLines]
  | cons c rest ih =>
    by_cases hc : c = '\n'
    · simp only [splitLines, hc, if_true]
      intro l hl
      rcases List.mem_cons.mp hl with rfl | hl
      · simp
      · exact ih l hl
    · simp only [splitLines, hc, if_false]
      cases h : splitLines rest with
      | nil => exact absurd h (splitLines_ne_nil rest)
      | cons l0 ls0 =>
        intro l hl
        rcases List.mem_cons.mp hl with rfl | hl
        · intro hmem
          rcases List.mem_cons.mp hmem with heq | hmem
          · exact hc heq.symm
          · exact ih l0 (h ▸ List.mem_cons_self l0 ls0) hmem
        · exact ih l (h ▸ List.mem_cons_of_mem l0 hl)

theorem split_of_no_nl {l : Str} (h : '\n' ∉ l) : splitLines l = [l] := by
  induction l with
  | nil => rfl
  | cons c rest ih =>
    have hc : ¬ (c = '\n') := fun hh => h (hh ▸ List.mem_cons_self c rest)
    simp only [splitLines, hc, if_false]
    rw [ih fun hm => h (List.mem_cons_of_mem c hm)]

theorem split_append_nl {l : Str} (t : Str) (h : '\n' ∉ l) :
    splitLines (l ++ '\n' :: t) = l :: splitLines t := by
  induction l with
  | nil => simp [splitLines]
  | cons c rest ih =>
    have hc : ¬ (c = '\n') := fun hh => h (hh ▸ List.mem_cons_self c rest)
    simp only [List.cons_append, splitLines, hc, if_false]
    rw [show rest.append ('\n' :: t) = rest ++ '\n' :: t from rfl,
      ih fun hm => h (List.mem_cons_of_mem c hm)]

theorem split_join {ls : List Str} (h : ∀ l ∈ ls, '\n' ∉ l) (hne : ls ≠ []) :
    splitLines (joinLines ls) = ls := by
  induction ls with
  | nil => exact absurd rfl hne
  | cons l ls ih =>
    cases ls with
    | nil => exact split_of_no_nl (h l (List.mem_cons_self l []))
    | cons l2 ls2 =>
      rw [show joinLines (l :: l2 :: ls2) = l ++ '\n' :: joinLines (l2 :: ls2) from rfl]
      rw [split_append_nl _ (h l (List.mem_cons_self l _))]
      rw [ih (fun x hx => h x (List.mem_cons_of_mem l hx)) (by simp)]

theorem mem_join {ls : List Str} {c : Char} (h : c ∈ joinLines ls) :
    c = '\n' ∨ ∃ l ∈ ls, c ∈ l := by
  induction ls with
  | nil => simp [joinLines] at h
  | cons l ls ih =>
    cases ls with
    | nil =>
      right
      exact ⟨l, List.mem_cons_self l [], h⟩
    | cons l2 ls2 =>
      rw [show joinLines (l :: l2 :: ls2) = l ++ '\n' :: joinLines (l2 :: ls2) from rfl] at h
      rcases List.mem_append.mp h with hm | hm
      · exact Or.inr ⟨l, List.mem_cons_self l _, hm⟩
      · rcases List.mem_cons.mp hm with rfl | hm
        · exact Or.inl rfl
        · rcases ih hm with hl | ⟨l', hl', hcl⟩
          · exact Or.inl hl
          · exact Or.inr ⟨l', List.mem_cons_of_mem l hl', hcl⟩

theorem infixAppendRight {x t : Str} (l : Str) (h : x <:+: t) : x <:+: l ++ t := by
  obtain ⟨u, v, huv⟩ := h
  exact ⟨l ++ u, v, by rw [← huv]; simp⟩

theorem infixSubset {l' l : Str} (h : l' <:+: l) : ∀ c ∈ l', c ∈ l := by
  obtain ⟨u, v, rfl⟩ := h
  intro c hc
  simp [hc]

theorem mem_infix_join {l : Str} {ls : List Str} (h : l ∈ ls) : l <:+: joinLines ls := by
  induction ls with
  | nil => simp at h
  | cons l0 ls ih =>
    cases ls with
    | nil =>
      rcases List.mem_cons.mp h with rfl | h
      · exact ⟨[], [], by simp [joinLines]⟩
      · simp at h
    | cons l2 ls2 =>
      rw [show joinLines (l0 :: l2 :: ls2) = l0 ++ '\n' :: joinLines (l2 :: ls2) from rfl]
      rcases List.mem_cons.mp h with rfl | h
      · exact ⟨[], '\n' :: joinLines (l2 :: ls2), by simp⟩
      · exact infixAppendRight l0 (infixOfCons (ih h))

theorem memSplitIsInfixOf {l s : Str} (h : l ∈ splitLines s) : l <:+: s := by
  have := mem_infix_join h
  rwa [join_split] at this

theorem head_join {ls : List Str} {c : Char} (h : (joinLines ls).head? = some c) :
    (∃ l ∈ ls, l.head? = some c) ∨ (c = '\n' ∧ [] ∈ ls) := by
  induction ls with
  | nil => simp [joinLines] at h
  | cons l ls ih =>
    cases ls with
    | nil => exact Or.inl ⟨l, List.mem_cons_self l [], h⟩
    | cons l2 ls2 =>
      rw [show joinLines (l :: l2 :: ls2) = l ++ '\n' :: joinLines (l2 :: ls2) from rfl] at h
      cases l with
      | nil =>
        simp only [List.nil_append, List.head?_cons, Option.some.injEq] at h
        exact Or.inr ⟨h.symm, List.mem_cons_self [] _⟩
      | cons a t =>
        simp only [List.cons_append, List.head?_cons, Option.some.injEq] at h
        exact Or.inl ⟨a :: t, List.mem_cons_self _ _, by simp [h]⟩

theorem getLast_cons_ne {a : Char} {l : Str} (h : l ≠ []) :
    (a :: l).getLast? = l.getLast? := by
  cases l with
  | nil => exact absurd rfl h
  | cons b t => exact List.getLast?_cons_cons

theorem join_cons_cons (l l2 : Str) (ls2 : List Str) :
    joinLines (l :: l2 :: ls2) = l ++ '\n' :: joinLines (l2 :: ls2) := rfl

theorem getLast_join {ls : List Str} {c : Char} (h : (joinLines ls).getLast? = some c) :
    (∃ l ∈ ls, l.getLast? = some c) ∨ (c = '\n' ∧ [] ∈ ls) := by
  induction ls with
  | nil => simp [joinLines] at h
  | cons l ls ih =>
    cases ls with
    | nil => exact Or.inl ⟨l, List.mem_cons_self l [], h⟩
    | cons l2 ls2 =>
      rw [join_cons_cons, List.getLast?_append_of_ne_nil _ (by simp)] at h
      by_cases hj : joinLines (l2 :: ls2) = []
      · rw [hj] at h
        simp only [List.getLast?_singleton, Option.some.injEq] at h
        have hl2 : l2 = [] := by
          cases ls2 with
          | nil => exact hj
          | cons l3 ls3 =>
            rw [join_cons_cons] at hj
            rcases List.append_eq_nil.mp hj with ⟨-, habs⟩
            exact absurd habs (by simp)
        exact Or.inr ⟨h.symm, List.mem_cons_of_mem l (hl2 ▸ List.mem_cons_self l2 ls2)⟩
      · rw [getLast_cons_ne hj] at h
        rcases ih h with ⟨l', hl', hcl⟩ | ⟨hc, hmem⟩
        · exact Or.inl ⟨l', List.mem_cons_of_mem l hl', hcl⟩
        · exact Or.inr ⟨hc, List.mem_cons_of_mem l hmem⟩

theorem chainOfAllPairs {R : Char → Char → Prop} {l : Str}
    (h : ∀ a ∈ l, ∀ b ∈ l, R a b) : List.Chain' R l := by
  induction l with
  | nil => exact List.chain'_nil
  | cons a t ih =>
    rw [List.chain'_cons']
    constructor
    · intro y hy
      have hyt : y ∈ t := by
        cases t with
        | nil => simp at hy
        | cons b t2 =>
          simp only [List.head?_cons, Option.mem_def, Option.some.injEq] at hy
          exact hy ▸ List.mem_cons_self b t2
      exact h a (List.mem_cons_self a t) y (List.mem_cons_of_mem a hyt)
    · exact ih fun x hx y hy =>
        h x (List.mem_cons_of_mem a hx) y (List.mem_cons_of_mem a hy)

theorem chainJoin {R : Char → Char → Prop} {ls : List Str}
    (h1 : ∀ l ∈ ls, List.Chain' R l)
    (h2 : ∀ l ∈ ls, ∀ a ∈ l.getLast?, R a '\n')
    (h3 : ∀ l ∈ ls, ∀ b ∈ l.head?, R '\n' b)
    (h4 : R '\n' '\n' ∨ ∀ l ∈ ls, l ≠ []) : List.Chain' R (joinLines ls) := by
  induction ls with
  | nil => exact List.chain'_nil
  | cons l ls ih =>
    cases ls with
    | nil => exact h1 l (List.mem_cons_self l [])
    | cons l2 ls2 =>
      rw [join_cons_cons]
      rw [List.chain'_append]
      refine ⟨h1 l (List.mem_cons_self l _), ?_, ?_⟩
      · rw [List.chain'_cons']
        constructor
        · intro y hy
          rcases head_join hy with ⟨l', hl', hh⟩ | ⟨rfl, hmem⟩
          · exact h3 l' (List.mem_cons_of_mem l hl') y hh
          · rcases h4 with hr | hne
            · exact hr
            · exact absurd rfl (hne [] (List.mem_cons_of_mem l hmem))
        · refine ih (fun x hx => h1 x (List.mem_cons_of_mem l hx))
            (fun x hx => h2 x (List.mem_cons_of_mem l hx))
            (fun x hx => h3 x (List.mem_cons_of_mem l hx)) ?_
          rcases h4 with hr | hne
          · exact Or.inl hr
          · exact Or.inr fun x hx => hne x (List.mem_cons_of_mem l hx)
      · intro x hx y hy
        simp only [List.head?_cons, Option.mem_def, Option.some.injEq] at hy
        subst hy
        exact h2 l (List.mem_cons_self l _) x hx

theorem join_empty_mem {ls : List Str} (h : [] ∈ ls) :
    joinLines ls = [] ∨ (joinLines ls).head? = some '\n' ∨
    (joinLines ls).getLast? = some '\n' ∨ ¬ List.Chain' NoNN (joinLines ls) := by
  induction ls with
  | nil => simp at h
  | cons l ls ih =>
    cases ls with
    | nil =>
      rcases List.mem_cons.mp h with rfl | h
      · exact Or.inl rfl
      · simp at h
    | cons l2 ls2 =>
      rw [join_cons_cons]
      rcases List.mem_cons.mp h with rfl | h
      · exact Or.inr (Or.inl (by simp))
      · rcases ih h with hnil | hhead | hlast | hchain
        · have hl2 : l2 = [] ∧ ls2 = [] := by
            cases ls2 with
            | nil => exact ⟨hnil, rfl⟩
            | cons l3 ls3 =>
              rw [join_cons_cons] at hnil
              rcases List.append_eq_nil.mp hnil with ⟨-, habs⟩
              exact absurd habs (by simp)
          refine Or.inr (Or.inr (Or.inl ?_))
          rw [hl2.1, hl2.2]
          rw [List.getLast?_append_of_ne_nil _ (by simp)]
          rfl
        · refine Or.inr (Or.inr (Or.inr ?_))
          intro hch
          rw [List.chain'_append] at hch
          obtain ⟨-, hch2, hbnd⟩ := hch
          rw [List.chain'_cons'] at hch2
          exact hch2.1 '\n' hhead ⟨rfl, rfl⟩
        · refine Or.inr (Or.inr (Or.inl ?_))
          rw [List.getLast?_append_of_ne_nil _ (by simp)]
          have hjoin : joinLines (l2 :: ls2) ≠ [] := by
            intro habs
            rw [habs] at hlast
            simp at hlast
          rw [getLast_cons_ne hjoin]
          exact hlast
        · refine Or.inr (Or.inr (Or.inr ?_))
          intro hch
          rw [List.chain'_append] at hch
          exact hchain (hch.2.1.tail)

theorem head_SP (s : Str) : (collapseSP s).head? = s.head? := by
  induction s with
  | nil => rfl
  | cons c rest ih =>
    by_cases h : c = ' ' ∧ rest.head? = some ' '
    · rw [show collapseSP (c :: rest) = collapseSP rest from by
        simp [collapseSP, h]]
      rw [ih, h.2, h.1]
      rfl
    · rw [show collapseSP (c :: rest) = c :: collapseSP rest from by
        simp only [collapseSP, h, if_false]]
      rfl

theorem take2_head {l : Str} (h : l.take 2 = ['\n', '\n']) : l.head? = some '\n' := by
  cases l with
  | nil => simp at h
  | cons a t =>
    simp only [List.take_succ_cons, List.cons.injEq] at h
    rw [h.1]
    rfl

theorem head_NL (s : Str) : (collapseNL s).head? = s.head? := by
  induction s with
  | nil => rfl
  | cons c rest ih =>
    by_cases h : c = '\n' ∧ rest.take 2 = ['\n', '\n']
    · rw [show collapseNL (c :: rest) = collapseNL rest from by
        simp [collapseNL, h]]
      rw [ih, take2_head h.2, h.1]
      rfl
    · rw [show collapseNL (c :: rest) = c :: collapseNL rest from by
        simp only [collapseNL, h, if_false]]
      rfl

theorem SP_nil_iff {s : Str} : collapseSP s = [] ↔ s = [] := by
  constructor
  · intro h
    have := head_SP s
    rw [h] at this
    cases s with
    | nil => rfl
    | cons a t => simp at this
  · rintro rfl
    rfl

theorem NL_nil_iff {s : Str} : collapseNL s = [] ↔ s = [] := by
  constructor
  · intro h
    have := head_NL s
    rw [h] at this
    cases s with
    | nil => rfl
    | cons a t => simp at this
  · rintro rfl
    rfl

theorem getLast_SP (s : Str) : (collapseSP s).getLast? = s.getLast? := by
  induction s with
  | nil => rfl
  | cons c rest ih =>
    by_cases h : c = ' ' ∧ rest.head? = some ' '
    · rw [show collapseSP (c :: rest) = collapseSP rest from by
        simp [collapseSP, h]]
      have hrest : rest ≠ [] := by
        intro habs
        rw [habs] at h
        simp at h
      rw [ih, getLast_cons_ne hrest]
    · rw [show collapseSP (c :: rest) = c :: collapseSP rest from by
        simp only [collapseSP, h, if_false]]
      by_cases hr : rest = []
      · subst hr
        rfl
      · have hspr : collapseSP rest ≠ [] := fun habs => hr (SP_nil_iff.mp habs)
        rw [getLast_cons_ne hspr, getLast_cons_ne hr, ih]

theorem getLast_NL (s : Str) : (collapseNL s).getLast? = s.getLast? := by
  induction s with
  | nil => rfl
  | cons c rest ih =>
    by_cases h : c = '\n' ∧ rest.take 2 = ['\n', '\n']
    · rw [show collapseNL (c :: rest) = collapseNL rest from by
        simp [collapseNL, h]]
      have hrest : rest ≠ [] := by
        intro habs
        rw [habs] at h
        simp at h
      rw [ih, getLast_cons_ne hrest]
    · rw [show collapseNL (c :: rest) = c :: collapseNL rest from by
        simp only [collapseNL, h, if_false]]
      by_cases hr : rest = []
      · subst hr
        rfl
      · have hnlr : collapseNL rest ≠ [] := fun habs => hr (NL_nil_iff.mp habs)
        rw [getLast_cons_ne hnlr, getLast_cons_ne hr, ih]

theorem chainSP {R : Char → Char → Prop} {s : Str} (h : List.Chain' R s) :
    List.Chain' R (collapseSP s) := by
  induction s with
  | nil => exact List.chain'_nil
  | cons c rest ih =>
    by_cases hc : c = ' ' ∧ rest.head? = some ' '
    · rw [show collapseSP (c :: rest) = collapseSP rest from by
        simp [collapseSP, hc]]
      exact ih h.tail
    · rw [show collapseSP (c :: rest) = c :: collapseSP rest from by
        simp only [collapseSP, hc, if_false]]
      rw [List.chain'_cons']
      refine ⟨?_, ih h.tail⟩
      intro y hy
      rw [head_SP] at hy
      exact (List.chain'_cons'.mp h).1 y hy

theorem chainNL {R : Char → Char → Prop} {s : Str} (h : List.Chain' R s) :
    List.Chain' R (collapseNL s) := by
  induction s with
  | nil => exact List.chain'_nil
  | cons c rest ih =>
    by_cases hc : c = '\n' ∧ rest.take 2 = ['\n', '\n']
    · rw [show collapseNL (c :: rest) = collapseNL rest from by
        simp [collapseNL, hc]]
      exact ih h.tail
    · rw [show collapseNL (c :: rest) = c :: collapseNL rest from by
        simp only [collapseNL, hc, if_false]]
      rw [List.chain'_cons']
      refine ⟨?_, ih h.tail⟩
      intro y hy
      rw [head_NL] at hy
      exact (List.chain'_cons'.mp h).1 y hy

theorem SP_eq_self {s : Str} (h : NoSpRun s) : collapseSP s = s := by
  induction s with
  | nil => rfl
  | cons c rest ih =>
    have hc : ¬ (c = ' ' ∧ rest.head? = some ' ') := by
      rintro ⟨rfl, hh⟩
      exact (List.chain'_cons'.mp h).1 ' ' hh ⟨rfl, rfl⟩
    rw [show collapseSP (c :: rest) = c :: collapseSP rest from by
      simp only [collapseSP, hc, if_false]]
    rw [ih h.tail]

theorem triplePre {c : Char} {rest : Str} (hc : c = '\n')
    (hp : rest.take 2 = ['\n', '\n']) : ['\n', '\n', '\n'] <:+: c :: rest := by
  subst hc
  refine ⟨[], rest.drop 2, ?_⟩
  have : rest.take 2 ++ rest.drop 2 = rest := List.take_append_drop 2 rest
  rw [hp] at this
  simp only [List.nil_append]
  rw [show ['\n', '\n', '\n'] ++ rest.drop 2 = '\n' :: (['\n', '\n'] ++ rest.drop 2) from rfl]
  rw [this]

theorem NL_eq_self {s : Str} (h : NoTripleNL s) : collapseNL s = s := by
  induction s with
  | nil => rfl
  | cons c rest ih =>
    have hc : ¬ (c = '\n' ∧ rest.take 2 = ['\n', '\n']) := by
      rintro ⟨hc1, hc2⟩
      exact h (triplePre hc1 hc2)
    rw [show collapseNL (c :: rest) = c :: collapseNL rest from by
      simp only [collapseNL, hc, if_false]]
    rw [ih fun hx => h (infixOfCons hx)]

theorem SP_noRun (s : Str) : NoSpRun (collapseSP s) := by
  induction s with
  | nil => exact List.chain'_nil
  | cons c rest ih =>
    by_cases hc : c = ' ' ∧ rest.head? = some ' '
    · rw [show collapseSP (c :: rest) = collapseSP rest from by
        simp [collapseSP, hc]]
      exact ih
    · rw [show collapseSP (c :: rest) = c :: collapseSP rest from by
        simp only [collapseSP, hc, if_false]]
      show List.Chain' SpacedOk (c :: collapseSP rest)
      rw [List.chain'_cons']
      refine ⟨?_, ih⟩
      intro y hy
      rw [head_SP] at hy
      rintro ⟨rfl, rfl⟩
      exact hc ⟨rfl, hy⟩

theorem take1_of_head {l₁ l₂ : Str} (h : l₁.head? = l₂.head?) : l₁.take 1 = l₂.take 1 := by
  cases l₁ with
  | nil =>
    cases l₂ with
    | nil => rfl
    | cons b t => simp at h
  | cons a t =>
    cases l₂ with
    | nil => simp at h
    | cons b t2 =>
      simp only [List.head?_cons, Option.some.injEq] at h
      simp [List.take_succ_cons, h]

theorem take2_NL (s : Str) : (collapseNL s).take 2 = s.take 2 := by
  induction s with
  | nil => rfl
  | cons c rest ih =>
    by_cases hc : c = '\n' ∧ rest.take 2 = ['\n', '\n']
    · rw [show collapseNL (c :: rest) = collapseNL rest from by
        simp [collapseNL, hc]]
      rw [ih, hc.1]
      have h1 : rest.take 1 = ['\n'] := by
        have := congrArg (List.take 1) hc.2
        rwa [List.take_take, show min 1 2 = 1 from rfl] at this
      rw [show (('\n' :: rest).take 2) = '\n' :: rest.take 1 from rfl, h1]
      exact hc.2
    · rw [show collapseNL (c :: rest) = c :: collapseNL rest from by
        simp only [collapseNL, hc, if_false]]
      rw [show ((c :: collapseNL rest).take 2) = c :: (collapseNL rest).take 1 from rfl]
      rw [show ((c :: rest).take 2) = c :: rest.take 1 from rfl]
      rw [take1_of_head (head_NL rest)]

theorem infixConsElim {x : Str} {a : Char} {l : Str} (h : x <:+: a :: l) :
    x <+: a :: l ∨ x <:+: l := by
  obtain ⟨u, v, huv⟩ := h
  cases u with
  | nil => exact Or.inl ⟨v, by simpa using huv⟩
  | cons b u2 =>
    right
    rw [List.cons_append, List.cons_append] at huv
    have := List.cons.inj huv
    exact ⟨u2, v, this.2⟩

theorem prefTake {x l : Str} (h : x <+: l) : l.take x.length = x :=
  (List.prefix_iff_eq_take.mp h).symm

theorem NL_noTriple (s : Str) : NoTripleNL (collapseNL s) := by
  induction s with
  | nil =>
    rintro ⟨u, v, huv⟩
    have := congrArg List.length huv
    simp only [show collapseNL [] = [] from rfl, List.length_append, List.length_nil] at this
    simp at this
  | cons c rest ih =>
    by_cases hc : c = '\n' ∧ rest.take 2 = ['\n', '\n']
    · rw [show collapseNL (c :: rest) = collapseNL rest from by
        simp [collapseNL, hc]]
      exact ih
    · rw [show collapseNL (c :: rest) = c :: collapseNL rest from by
        simp only [collapseNL, hc, if_false]]
      intro hinf
      rcases infixConsElim hinf with hpre | hinf2
      · rw [List.cons_prefix_cons] at hpre
        have htk : (collapseNL rest).take 2 = ['\n', '\n'] := prefTake hpre.2
        rw [take2_NL] at htk
        exact hc ⟨hpre.1.symm, htk⟩
      · exact ih hinf2

theorem mem_SP {s : Str} {c : Char} (h : c ∈ collapseSP s) : c ∈ s := by
  induction s with
  | nil => simp [collapseSP] at h
  | cons a rest ih =>
    by_cases ha : a = ' ' ∧ rest.head? = some ' '
    · rw [show collapseSP (a :: rest) = collapseSP rest from by
        simp [collapseSP, ha]] at h
      exact List.mem_cons_of_mem a (ih h)
    · rw [show collapseSP (a :: rest) = a :: collapseSP rest from by
        simp only [collapseSP, ha, if_false]] at h
      rcases List.mem_cons.mp h with rfl | h
      · exact List.mem_cons_self c rest
      · exact List.mem_cons_of_mem a (ih h)

theorem mem_NL {s : Str} {c : Char} (h : c ∈ collapseNL s) : c ∈ s := by
  induction s with
  | nil => simp [collapseNL] at h
  | cons a rest ih =>
    by_cases ha : a = '\n' ∧ rest.take 2 = ['\n', '\n']
    · rw [show collapseNL (a :: rest) = collapseNL rest from by
        simp [collapseNL, ha]] at h
      exact List.mem_cons_of_mem a (ih h)
    · rw [show collapseNL (a :: rest) = a :: collapseNL rest from by
        simp only [collapseNL, ha, if_false]] at h
      rcases List.mem_cons.mp h with rfl | h
      · exact List.mem_cons_self c rest
      · exact List.mem_cons_of_mem a (ih h)

theorem mem_SP_of_ne_space {s : Str} {c : Char} (hc : c ≠ ' ') (h : c ∈ s) :
    c ∈ collapseSP s := by
  induction s with
  | nil => simp at h
  | cons a rest ih =>
    by_cases ha : a = ' ' ∧ rest.head? = some ' '
    · rw [show collapseSP (a :: rest) = collapseSP rest from by
        simp [collapseSP, ha]]
      rcases List.mem_cons.mp h with rfl | h
      · exact absurd ha.1 hc
      · exact ih h
    · rw [show collapseSP (a :: rest) = a :: collapseSP rest from by
        simp only [collapseSP, ha, if_false]]
      rcases List.mem_cons.mp h with rfl | h
      · exact List.mem_cons_self c _
      · exact List.mem_cons_of_mem a (ih h)

theorem noTab_TB (s : Str) : '\t' ∉ tabsToSp s := by
  intro h
  obtain ⟨a, -, ha⟩ := List.mem_map.mp h
  by_cases h1 : a = '\t' <;> simp [h1] at ha

theorem mem_TB_no_nl {s : Str} (h : '\n' ∈ tabsToSp s) : '\n' ∈ s := by
  obtain ⟨a, ha, hfa⟩ := List.mem_map.mp h
  by_cases h1 : a = '\t'
  · simp [h1] at hfa
  · simp only [h1, if_false] at hfa
    exact hfa ▸ ha

theorem TB_eq_self {s : Str} (h : '\t' ∉ s) : tabsToSp s = s := by
  conv_rhs => rw [show s = s.map id from (List.map_id s).symm]
  refine List.map_congr_left fun a ha => ?_
  have : a ≠ '\t' := fun habs => h (habs ▸ ha)
  simp [this]

theorem pairOfChainInfix {R : Char → Char → Prop} {a b : Char} {s : Str}
    (h : List.Chain' R s) (hinf : [a, b] <:+: s) : R a b := by
  have h2 : List.Chain' R [a, b] := chainOfInfix h hinf
  exact (List.chain'_cons'.mp h2).1 b rfl

theorem noTriple_of_NoNN {s : Str} (h : NoNNRun s) : NoTripleNL s := by
  intro hinf
  obtain ⟨u, v, huv⟩ := hinf
  have h2 : ['\n', '\n'] <:+: s := ⟨u, '\n' :: v, by rw [← huv]; simp⟩
  exact pairOfChainInfix h h2 ⟨rfl, rfl⟩

theorem SP_append_nl (xs ys : Str) :
    collapseSP (xs ++ '\n' :: ys) = collapseSP xs ++ '\n' :: collapseSP ys := by
  induction xs with
  | nil =>
    simp only [List.nil_append]
    rw [show collapseSP ('\n' :: ys) = '\n' :: collapseSP ys from by
      simp [collapseSP]]
    rfl
  | cons c rest ih =>
    by_cases hc : c = ' ' ∧ rest.head? = some ' '
    · have hcond : c = ' ' ∧ (rest ++ '\n' :: ys).head? = some ' ' := by
        refine ⟨hc.1, ?_⟩
        cases rest with
        | nil => simp at hc
        | cons a t =>
          simp only [List.head?_cons] at hc ⊢
          exact hc.2
      rw [show collapseSP (c :: rest ++ '\n' :: ys) = collapseSP (rest ++ '\n' :: ys) from by
        simp [collapseSP, hcond]]
      rw [show collapseSP (c :: rest) = collapseSP rest from by
        simp [collapseSP, hc]]
      exact ih
    · have hcond : ¬ (c = ' ' ∧ (rest ++ '\n' :: ys).head? = some ' ') := by
        rintro ⟨rfl, hh⟩
        refine hc ⟨rfl, ?_⟩
        cases rest with
        | nil => simp at hh
        | cons a t =>
          simp only [List.head?_cons] at hh ⊢
          exact hh
      rw [show collapseSP (c :: rest ++ '\n' :: ys) =
          c :: collapseSP (rest ++ '\n' :: ys) from by
        rw [List.cons_append]
        simp only [collapseSP, hcond, if_false]]
      rw [show collapseSP (c :: rest) = c :: collapseSP rest from by
        simp only [collapseSP, hc, if_false]]
      rw [ih]
      rfl

theorem SP_join (ls : List Str) :
    collapseSP (joinLines ls) = joinLines (ls.map collapseSP) := by
  induction ls with
  | nil => rfl
  | cons l ls ih =>
    cases ls with
    | nil => rfl
    | cons l2 ls2 =>
      rw [join_cons_cons, SP_append_nl, ih]
      rfl

theorem split_SP (s : Str) :
    splitLines (collapseSP s) = (splitLines s).map collapseSP := by
  conv_lhs => rw [← join_split s]
  rw [SP_join, split_join]
  · intro l hl
    obtain ⟨l0, hl0, rfl⟩ := List.mem_map.mp hl
    intro hmem
    exact mem_split_no_nl s l0 hl0 (mem_SP hmem)
  · simp [splitLines_ne_nil]

theorem lineWS_of_notWS {c : Char} (h : isWS c = false) : lineWS c = false := by
  simp [lineWS, h]

theorem notWS_of_lineWS {c : Char} (h : lineWS c = false) (hne : c ≠ '\n') :
    isWS c = false := by
  by_cases hw : isWS c
  · exfalso
    have : lineWS c = true := by
      simp [lineWS, hw, hne]
    rw [this] at h
    exact Bool.noConfusion h
  · exact Bool.eq_false_iff.mpr hw

theorem lineWS_nl : lineWS '\n' = false := by decide

theorem mem_of_headOpt {l : Str} {a : Char} (h : l.head? = some a) : a ∈ l := by
  cases l with
  | nil => simp at h
  | cons b t =>
    simp only [List.head?_cons, Option.some.injEq] at h
    exact h ▸ List.mem_cons_self b t

theorem mem_of_lastOpt {l : Str} {a : Char} (h : l.getLast? = some a) : a ∈ l := by
  have h2 : l.reverse.head? = some a := by rw [List.head?_reverse]; exact h
  exact List.mem_reverse.mp (mem_of_headOpt h2)

theorem linesTrimmed_join {ls : List Str} (hnl : ∀ l ∈ ls, '\n' ∉ l)
    (hch : List.Chain' EdgeOk (joinLines ls))
    (hhead : ∀ c ∈ (joinLines ls).head?, lineWS c = false)
    (hlast : ∀ c ∈ (joinLines ls).getLast?, lineWS c = false) :
    ∀ l ∈ ls, trimStr l = l := by
  induction ls with
  | nil => simp
  | cons l ls ih =>
    cases ls with
    | nil =>
      intro l' hl'
      rcases List.mem_cons.mp hl' with rfl | hl'
      · refine trim_eq_self ⟨?_, ?_⟩
        · intro c hc
          exact notWS_of_lineWS (hhead c hc)
            (fun habs => hnl l' (List.mem_cons_self l' []) (habs ▸ mem_of_headOpt hc))
        · intro c hc
          exact notWS_of_lineWS (hlast c hc)
            (fun habs => hnl l' (List.mem_cons_self l' []) (habs ▸ mem_of_lastOpt hc))
      · simp at hl'
    | cons l2 ls2 =>
      rw [join_cons_cons] at hch hhead hlast
      have hdec := List.chain'_append.mp hch
      intro l' hl'
      rcases List.mem_cons.mp hl' with rfl | hl'
      · refine trim_eq_self ⟨?_, ?_⟩
        · intro c hc
          have hwhole : (l' ++ '\n' :: joinLines (l2 :: ls2)).head? = some c := by
            rw [List.head?_append, hc]
            rfl
          exact notWS_of_lineWS (hhead c hwhole)
            (fun habs => hnl l' (List.mem_cons_self l' _) (habs ▸ mem_of_headOpt hc))
        · intro c hc
          have hedge : EdgeOk c '\n' := hdec.2.2 c hc '\n' rfl
          have hlws : lineWS c = false := by
            by_cases hl : lineWS c
            · exact absurd ⟨hl, rfl⟩ hedge.2
            · exact Bool.eq_false_iff.mpr hl
          exact notWS_of_lineWS hlws
            (fun habs => hnl l' (List.mem_cons_self l' _) (habs ▸ mem_of_lastOpt hc))
      · refine ih (fun x hx => hnl x (List.mem_cons_of_mem l hx)) hdec.2.1.tail ?_ ?_ l' hl'
        · intro c hc
          have hedge : EdgeOk '\n' c := (List.chain'_cons'.mp hdec.2.1).1 c hc
          by_cases hl : lineWS c
          · exact absurd ⟨rfl, hl⟩ hedge.1
          · exact Bool.eq_false_iff.mpr hl
        · intro c hc
          have hne : joinLines (l2 :: ls2) ≠ [] := by
            intro habs
            rw [habs] at hc
            simp at hc
          refine hlast c ?_
          rw [List.getLast?_append_of_ne_nil _ (by simp), getLast_cons_ne hne]
          exact hc

theorem linesTrimmed_of_chain {s : Str} (h : LinesTrimmedCh s) :
    ∀ l ∈ splitLines s, trimStr l = l := by
  refine linesTrimmed_join (mem_split_no_nl s) ?_ ?_ ?_
  · rw [join_split]
    exact h.1
  · rw [join_split]
    exact h.2.1
  · rw [join_split]
    exact h.2.2

theorem chainEdge_join {ls : List Str} (h : ∀ l ∈ ls, '\n' ∉ l ∧ EdgesNotWS l) :
    LinesTrimmedCh (joinLines ls) := by
  refine ⟨?_, ?_, ?_⟩
  · refine chainJoin ?_ ?_ ?_ ?_
    · intro l hl
      refine chainOfAllPairs fun a ha b hb => ?_
      constructor
      · rintro ⟨rfl, -⟩
        exact (h l hl).1 ha
      · rintro ⟨-, rfl⟩
        exact (h l hl).1 hb
    · intro l hl a ha
      constructor
      · rintro ⟨-, habs⟩
        rw [lineWS_nl] at habs
        exact Bool.noConfusion habs
      · rintro ⟨hws, -⟩
        rw [lineWS_of_notWS ((h l hl).2.2 a ha)] at hws
        exact Bool.noConfusion hws
    · intro l hl b hb
      constructor
      · rintro ⟨-, hws⟩
        rw [lineWS_of_notWS ((h l hl).2.1 b hb)] at hws
        exact Bool.noConfusion hws
      · rintro ⟨hws, -⟩
        rw [lineWS_nl] at hws
        exact Bool.noConfusion hws
    · left
      constructor
      · rintro ⟨-, hws⟩
        rw [lineWS_nl] at hws
        exact Bool.noConfusion hws
      · rintro ⟨hws, -⟩
        rw [lineWS_nl] at hws
        exact Bool.noConfusion hws
  · intro c hc
    rcases head_join hc with ⟨l, hl, hh⟩ | ⟨rfl, -⟩
    · exact lineWS_of_notWS ((h l hl).2.1 c hh)
    · exact lineWS_nl
  · intro c hc
    rcases getLast_join hc with ⟨l, hl, hh⟩ | ⟨rfl, -⟩
    · exact lineWS_of_notWS ((h l hl).2.2 c hh)
    · exact lineWS_nl

theorem chainEdge_trim {s : Str} (h : LinesTrimmedCh s) : LinesTrimmedCh (trimStr s) :=
  ⟨chainOfInfix h.1 (trimIsInfixOf s),
   fun c hc => lineWS_of_notWS (head_trim_notWS s c hc),
   fun c hc => lineWS_of_notWS (last_trim_notWS s c hc)⟩

theorem chainEdge_SP {s : Str} (h : LinesTrimmedCh s) : LinesTrimmedCh (collapseSP s) := by
  refine ⟨chainSP h.1, ?_, ?_⟩
  · rw [head_SP]
    exact h.2.1
  · rw [getLast_SP]
    exact h.2.2

theorem chainEdge_NL {s : Str} (h : LinesTrimmedCh s) : LinesTrimmedCh (collapseNL s) := by
  refine ⟨chainNL h.1, ?_, ?_⟩
  · rw [head_NL]
    exact h.2.1
  · rw [getLast_NL]
    exact h.2.2

theorem map_trim_id {ls : List Str} (h : ∀ l ∈ ls, trimStr l = l) :
    ls.map trimStr = ls := by
  conv_rhs => rw [show ls = ls.map id from (List.map_id ls).symm]
  exact List.map_congr_left h

theorem spacedOk_nl_right (a : Char) : SpacedOk a '\n' := by
  rintro ⟨-, habs⟩
  exact absurd habs (by decide)

theorem spacedOk_nl_left (b : Char) : SpacedOk '\n' b := by
  rintro ⟨habs, -⟩
  exact absurd habs (by decide)

theorem cleanPDF_NoSpRun (s : Str) : NoSpRun (cleanTextPDF s) := by
  refine chainOfInfix ?_ (trimIsInfixOf _)
  refine chainJoin ?_ ?_ ?_ ?_
  · intro l hl
    obtain ⟨l0, hl0, rfl⟩ := List.mem_map.mp hl
    exact chainOfInfix
      (chainOfInfix (chainNL (SP_noRun s)) (memSplitIsInfixOf hl0)) (trimIsInfixOf l0)
  · exact fun l _ a _ => spacedOk_nl_right a
  · exact fun l _ b _ => spacedOk_nl_left b
  · exact Or.inl (spacedOk_nl_left '\n')

theorem cleanPDF_lines (s : Str) : LinesTrimmedCh (cleanTextPDF s) := by
  refine chainEdge_trim (chainEdge_join ?_)
  intro l hl
  obtain ⟨l0, hl0, rfl⟩ := List.mem_map.mp hl
  refine ⟨?_, edges_trim l0⟩
  intro hmem
  exact mem_split_no_nl _ l0 hl0 (infixSubset (trimIsInfixOf l0) '\n' hmem)

theorem cleanPDF_second {y : Str} (h1 : NoSpRun y) (h2 : LinesTrimmedCh y) :
    cleanTextPDF y = trimStr (collapseNL y) := by
  unfold cleanTextPDF
  rw [SP_eq_self h1]
  rw [map_trim_id (linesTrimmed_of_chain (chainEdge_NL h2)), join_split]

theorem cleanPDF_fixpoint {t : Str} (h1 : NoSpRun t) (h2 : NoTripleNL t)
    (h3 : LinesTrimmedCh t) (h4 : trimStr t = t) : cleanTextPDF t = t := by
  unfold cleanTextPDF
  rw [SP_eq_self h1, NL_eq_self h2, map_trim_id (linesTrimmed_of_chain h3),
    join_split, h4]

theorem cleanPDF_stable (s : Str) :
    cleanTextPDF (cleanTextPDF (cleanTextPDF s)) = cleanTextPDF (cleanTextPDF s) := by
  have hy1 : NoSpRun (cleanTextPDF s) := cleanPDF_NoSpRun s
  have hy2 : LinesTrimmedCh (cleanTextPDF s) := cleanPDF_lines s
  have h2nd : cleanTextPDF (cleanTextPDF s) = trimStr (collapseNL (cleanTextPDF s)) :=
    cleanPDF_second hy1 hy2
  rw [h2nd]
  refine cleanPDF_fixpoint ?_ ?_ ?_ ?_
  · exact chainOfInfix (chainNL hy1) (trimIsInfixOf _)
  · exact fun hinf => NL_noTriple (cleanTextPDF s) (infixTrans hinf (trimIsInfixOf _))
  · exact chainEdge_trim (chainEdge_NL hy2)
  · exact trim_idem _

theorem cleanDOCX_noTab (s : Str) : '\t' ∉ cleanTextDOCX s := by
  intro hmem
  have h1 : '\t' ∈ joinLines
      (((splitLines (tabsToSp (collapseNL (collapseSP s)))).map trimStr).filter
        fun l => decide (0 < l.length)) :=
    infixSubset (trimIsInfixOf _) '\t' hmem
  rcases mem_join h1 with habs | ⟨l, hl, hmem2⟩
  · exact absurd habs (by decide)
  · have hl2 := List.mem_filter.mp hl
    obtain ⟨l0, hl0, rfl⟩ := List.mem_map.mp hl2.1
    have h3 : '\t' ∈ l0 := infixSubset (trimIsInfixOf l0) '\t' hmem2
    have h4 : '\t' ∈ tabsToSp (collapseNL (collapseSP s)) :=
      infixSubset (memSplitIsInfixOf hl0) '\t' h3
    exact noTab_TB _ h4

theorem cleanDOCX_lines (s : Str) : LinesTrimmedCh (cleanTextDOCX s) := by
  refine chainEdge_trim (chainEdge_join ?_)
  intro l hl
  have hl2 := List.mem_filter.mp hl
  obtain ⟨l0, hl0, rfl⟩ := List.mem_map.mp hl2.1
  refine ⟨?_, edges_trim l0⟩
  intro hmem
  exact mem_split_no_nl _ l0 hl0 (infixSubset (trimIsInfixOf l0) '\n' hmem)

theorem noNN_of_ne {a b : Char} (h : a ≠ '\n') : NoNN a b := by
  rintro ⟨habs, -⟩
  exact h habs

theorem noNN_of_ne_right {a b : Char} (h : b ≠ '\n') : NoNN a b := by
  rintro ⟨-, habs⟩
  exact h habs

theorem cleanDOCX_NoNN (s : Str) : NoNNRun (cleanTextDOCX s) := by
  refine chainOfInfix ?_ (trimIsInfixOf _)
  refine chainJoin ?_ ?_ ?_ ?_
  · intro l hl
    have hl2 := List.mem_filter.mp hl
    obtain ⟨l0, hl0, rfl⟩ := List.mem_map.mp hl2.1
    refine chainOfAllPairs fun a ha b hb => ?_
    refine noNN_of_ne fun habs => ?_
    exact mem_split_no_nl _ l0 hl0
      (infixSubset (trimIsInfixOf l0) '\n' (habs ▸ ha))
  · intro l hl a ha
    have hl2 := List.mem_filter.mp hl
    obtain ⟨l0, hl0, rfl⟩ := List.mem_map.mp hl2.1
    refine noNN_of_ne fun habs => ?_
    exact mem_split_no_nl _ l0 hl0
      (infixSubset (trimIsInfixOf l0) '\n' (habs ▸ mem_of_lastOpt ha))
  · intro l hl b hb
    have hl2 := List.mem_filter.mp hl
    obtain ⟨l0, hl0, rfl⟩ := List.mem_map.mp hl2.1
    refine noNN_of_ne_right fun habs => ?_
    exact mem_split_no_nl _ l0 hl0
      (infixSubset (trimIsInfixOf l0) '\n' (habs ▸ mem_of_headOpt hb))
  · right
    intro l hl
    have hl2 := List.mem_filter.mp hl
    have : 0 < l.length := of_decide_eq_true hl2.2
    exact List.ne_nil_of_length_pos this

theorem lines_nonempty {w : Str} (hw : w ≠ []) (hch : NoNNRun w)
    (hh : w.head? ≠ some '\n') (hl : w.getLast? ≠ some '\n') :
    ∀ l ∈ splitLines w, l ≠ [] := by
  intro l hmem habs
  subst habs
  rcases join_empty_mem hmem with hnil | hhead | hlast | hchain
  · rw [join_split] at hnil
    exact hw hnil
  · rw [join_split] at hhead
    exact hh hhead
  · rw [join_split] at hlast
    exact hl hlast
  · rw [join_split] at hchain
    exact hchain hch

theorem head_ne_nl_of_edges {y : Str} (h : EdgesNotWS y) : y.head? ≠ some '\n' := by
  intro habs
  have := h.1 '\n' habs
  exact absurd this (by decide)

theorem last_ne_nl_of_edges {y : Str} (h : EdgesNotWS y) : y.getLast? ≠ some '\n' := by
  intro habs
  have := h.2 '\n' habs
  exact absurd this (by decide)

theorem cleanDOCX_nil : cleanTextDOCX [] = [] := rfl

theorem filter_nonempty_id {ls : List Str} (h : ∀ l ∈ ls, l ≠ []) :
    ls.filter (fun l => decide (0 < l.length)) = ls := by
  refine List.filter_eq_self.mpr fun l hl => ?_
  exact decide_eq_true (List.length_pos.mpr (h l hl))

theorem cleanDOCX_second {y : Str} (h0 : '\t' ∉ y) (h2 : LinesTrimmedCh y)
    (h3 : EdgesNotWS y) (h4 : NoNNRun y) :
    cleanTextDOCX y = trimStr (collapseSP y) := by
  by_cases hy : y = []
  · subst hy
    rfl
  unfold cleanTextDOCX
  rw [NL_eq_self (noTriple_of_NoNN (chainSP h4))]
  rw [TB_eq_self (fun hmem => h0 (mem_SP hmem))]
  rw [map_trim_id (linesTrimmed_of_chain (chainEdge_SP h2))]
  rw [filter_nonempty_id (lines_nonempty
    (fun habs => hy (SP_nil_iff.mp habs))
    (chainSP h4)
    (by rw [head_SP]; exact head_ne_nl_of_edges h3)
    (by rw [getLast_SP]; exact last_ne_nl_of_edges h3))]
  rw [join_split]

theorem cleanDOCX_fixpoint {t : Str} (h0 : '\t' ∉ t) (h1 : NoSpRun t)
    (h2 : LinesTrimmedCh t) (h3 : EdgesNotWS t) (h4 : NoNNRun t)
    (h5 : trimStr t = t) : cleanTextDOCX t = t := by
  by_cases ht : t = []
  · subst ht
    rfl
  unfold cleanTextDOCX
  rw [SP_eq_self h1]
  rw [NL_eq_self (noTriple_of_NoNN h4)]
  rw [TB_eq_self h0]
  rw [map_trim_id (linesTrimmed_of_chain h2)]
  rw [filter_nonempty_id (lines_nonempty ht h4
    (head_ne_nl_of_edges h3) (last_ne_nl_of_edges h3))]
  rw [join_split, h5]

theorem cleanDOCX_stable (s : Str) :
    cleanTextDOCX (cleanTextDOCX (cleanTextDOCX s)) = cleanTextDOCX (cleanTextDOCX s) := by
  have hy0 : '\t' ∉ cleanTextDOCX s := cleanDOCX_noTab s
  have hy2 : LinesTrimmedCh (cleanTextDOCX s) := cleanDOCX_lines s
  have hy3 : EdgesNotWS (cleanTextDOCX s) := edges_trim _
  have hy4 : NoNNRun (cleanTextDOCX s) := cleanDOCX_NoNN s
  have h2nd : cleanTextDOCX (cleanTextDOCX s) = trimStr (collapseSP (cleanTextDOCX s)) :=
    cleanDOCX_second hy0 hy2 hy3 hy4
  rw [h2nd]
  refine cleanDOCX_fixpoint ?_ ?_ ?_ ?_ ?_ ?_
  · intro hmem
    exact hy0 (mem_SP (infixSubset (trimIsInfixOf _) '\t' hmem))
  · exact chainOfInfix (SP_noRun _) (trimIsInfixOf _)
  · exact chainEdge_trim (chainEdge_SP hy2)
  · exact edges_trim _
  · exact chainOfInfix (chainSP hy4) (trimIsInfixOf _)
  · exact trim_idem _

theorem noNN_of_lines {s : Str} (hne : ∀ l ∈ splitLines s, l ≠ []) : NoNNRun s := by
  have h : List.Chain' NoNN (joinLines (splitLines s)) := by
    refine chainJoin ?_ ?_ ?_ ?_
    · intro l hl
      refine chainOfAllPairs fun a ha b hb => ?_
      exact noNN_of_ne fun habs => mem_split_no_nl s l hl (habs ▸ ha)
    · intro l hl a ha
      exact noNN_of_ne fun habs => mem_split_no_nl s l hl (habs ▸ mem_of_lastOpt ha)
    · intro l hl b hb
      exact noNN_of_ne_right fun habs => mem_split_no_nl s l hl (habs ▸ mem_of_headOpt hb)
    · exact Or.inr hne
  rwa [join_split] at h

theorem sharedSteps {s : Str} (h0 : '\t' ∉ s)
    (hLines : ∀ l ∈ splitLines s, ∃ c ∈ l, isWS c = false) :
    cleanTextPDF s = cleanTextDOCX s := by
  have hNoNN : NoNNRun s :=
    noNN_of_lines fun l hl => by
      obtain ⟨c, hc, -⟩ := hLines l hl
      exact List.ne_nil_of_mem hc
  unfold cleanTextPDF cleanTextDOCX
  rw [NL_eq_self (noTriple_of_NoNN (chainSP hNoNN))]
  rw [TB_eq_self fun hm => h0 (mem_SP hm)]
  rw [filter_nonempty_id ?hne]
  case hne =>
    intro l hl
    obtain ⟨l1, hl1, rfl⟩ := List.mem_map.mp hl
    rw [split_SP] at hl1
    obtain ⟨l0, hl0, rfl⟩ := List.mem_map.mp hl1
    obtain ⟨c, hc, hcw⟩ := hLines l0 hl0
    intro habs
    have hcs : c ≠ ' ' := by
      rintro rfl
      exact absurd hcw (by decide)
    have hmem : c ∈ collapseSP l0 := mem_SP_of_ne_space hcs hc
    have := trim_all_ws habs c hmem
    rw [this] at hcw
    exact Bool.noConfusion hcw

/-! ## Claim C2 -/

/-- Claim C2 as stated is false for both paths: the PDF-path `cleanText` is not
idempotent on `"a\n \n \nb"` (trimming whitespace-only lines creates a fresh
run of three newlines that only a second pass collapses), and the DOCX-path
`cleanText` is not idempotent on `"a\t\tb"` (tab replacement runs after space
collapsing, so a double space appears that only a second pass collapses). -/
theorem C2_counterexample :
    cleanTextPDF (cleanTextPDF (str "a\n \n \nb")) ≠ cleanTextPDF (str "a\n \n \nb") ∧
    cleanTextDOCX (cleanTextDOCX (str "a\t\tb")) ≠ cleanTextDOCX (str "a\t\tb") := by
  decide

/-- Claim C2 (corrected): normalization is not idempotent, but it stabilizes
after two applications — for every input `x` and both paths,
`cleanText (cleanText (cleanText x)) = cleanText (cleanText x)`. -/
theorem C2_normalizer_stabilizes (s : Str) :
    cleanTextPDF (cleanTextPDF (cleanTextPDF s)) = cleanTextPDF (cleanTextPDF s) ∧
    cleanTextDOCX (cleanTextDOCX (cleanTextDOCX s)) = cleanTextDOCX (cleanTextDOCX s) :=
  ⟨cleanPDF_stable s, cleanDOCX_stable s⟩

/-! ## Claim C9 -/

/-- Claim C9 as stated is false: tab conversion happens on the DOCX path only.
The PDF-path `cleanText` has no tab-replacement step, so `"a\tb"` keeps its tab
there, while the DOCX path converts it to a space. -/
theorem C9_counterexample :
    cleanTextPDF (str "a\tb") = str "a\tb" ∧
    '\t' ∈ cleanTextPDF (str "a\tb") ∧
    cleanTextDOCX (str "a\tb") = str "a b" := by
  decide

/-- Claim C9 (corrected): the Normalizer converts tabs to single spaces on the
DOCX path only (no tab survives DOCX normalization, while the PDF path leaves
`"a\tb"` unchanged), the DOCX path alone strips blank lines (its output never
contains two adjacent newlines, while the PDF path keeps `"a\n\nb"`), and the
remaining steps agree: on inputs without tabs and in which every line has a
non-whitespace character, the two paths produce identical output. -/
theorem C9_normalizer_paths_amended :
    (∀ s : Str, '\t' ∉ cleanTextDOCX s) ∧
    (∀ s : Str, NoNNRun (cleanTextDOCX s)) ∧
    cleanTextPDF (str "a\tb") = str "a\tb" ∧
    cleanTextPDF (str "a\n\nb") = str "a\n\nb" ∧
    (∀ s : Str, '\t' ∉ s → (∀ l ∈ splitLines s, ∃ c ∈ l, isWS c = false) →
      cleanTextPDF s = cleanTextDOCX s) :=
  ⟨cleanDOCX_noTab, cleanDOCX_NoNN, by decide, by decide,
   fun _ h0 hl => sharedSteps h0 hl⟩

/-- Witness for the amended C9 at concrete inputs. -/
theorem C9_witness :
    '\t' ∉ cleanTextDOCX (str "x\ty") ∧
    cleanTextPDF (str "a b\nc d") = cleanTextDOCX (str "a b\nc d") := by
  have h := C9_normalizer_paths_amended
  exact ⟨h.1 (str "x\ty"), h.2.2.2.2 (str "a b\nc d") (by decide) (by decide)⟩
